import Mathlib

/-!
Verification of the page-cache layer of segmentio/datastructures.

The development shallowly embeds the Go sources:

* `src/cache/lru.go` — the `LRU` type is modelled as an association list in
  recency order (front of `queue` = most recently used).  The Go code keeps a
  hash map from key to an intrusive list node purely for O(1) access; its
  observable state is exactly the recency-ordered sequence of entries.
* `src/pagecache/pagecache.go` — `bucket`, `Cache`, `NewWithConfig` and
  `cachedFile.ReadAt` are embedded with explicit state passing.  Machine
  integers are modelled as `Nat` (with `% 2^32` exactly where the Go code
  converts with `uint32(...)`); the byte arena is a function `Nat → UInt8`.
  Go slice-bound panics in `ReadAt`'s copy expressions are modelled as a
  distinguished `Err.panicSlice` result (the slice checks are hoisted to the
  call sites; backing sources are assumed to respect the `io.ReaderAt`
  contract `rn ≤ len(data)`, so slice capacities beyond one page never come
  into play on any path analysed here).
* The backing `io.ReaderAt` is a function from (length, offset) to a result
  (count, bytes, error); the per-instance `maphash` seed is an arbitrary
  function `region → Fin 64`, which is exactly the determinism the code
  relies on.
-/

namespace DS

/-- Number of buckets in a Cache instance (`numBuckets` in pagecache.go). -/
def numBuckets : Nat := 64

/-- Modulus of Go's `uint32` conversion. -/
def u32 : Nat := 4294967296

/-- Errors surfaced by the embedded code.  `eof` is `io.EOF`,
`errNoProgress` is `io.ErrNoProgress`, `errNoPages` is `ErrNoPages`,
`rangeErr` is the "offset out of range" error, `panicSlice` marks a Go
slice-bounds panic, `fuelOut` is an artifact of the fuelled loop (proved
unreachable wherever a claim depends on it), and `other` stands for any
error value a backing source may return. -/
inductive Err where
  | eof
  | errNoProgress
  | errNoPages
  | rangeErr
  | panicSlice
  | fuelOut
  | other (code : Nat)
deriving DecidableEq

/-- Cache key (`region` in pagecache.go): object id and page index, both
`uint32` in Go. -/
structure region where
  object : Nat
  offset : Nat
deriving DecidableEq

/-- Page slot (`page` in pagecache.go): offset of the slot inside its
bucket's byte region, in pages. -/
structure page where
  offset : Nat
deriving DecidableEq

/-! ## LRU (src/cache/lru.go)

`queue` lists the entries from most recently used (head) to least recently
used (tail). -/

structure LRU (K V : Type) where
  queue : List (K × V)

/-- First value bound to `key` (the hash-map lookup `lru.index[key]`). -/
def lruFind {K V : Type} [DecidableEq K] (key : K) : List (K × V) → Option V
  | [] => none
  | e :: es => if e.1 = key then some e.2 else lruFind key es

/-- Drop the first entry bound to `key` (the list-node removal
`lru.queue.Remove(e)`). -/
def lruRemove {K V : Type} [DecidableEq K] (key : K) : List (K × V) → List (K × V)
  | [] => []
  | e :: es => if e.1 = key then es else e :: lruRemove key es

/-- `LRU.Len`. -/
def LRU.Len {K V : Type} (lru : LRU K V) : Nat := lru.queue.length

/-- `LRU.Insert`: remove any entry bound to `key` and push the new entry to
the front; returns the previous value when one was replaced. -/
def LRU.Insert {K V : Type} [DecidableEq K] (lru : LRU K V) (key : K) (v : V) :
    LRU K V × Option V :=
  match lruFind key lru.queue with
  | some prev => (⟨(key, v) :: lruRemove key lru.queue⟩, some prev)
  | none => (⟨(key, v) :: lru.queue⟩, none)

/-- `LRU.Lookup`: on a hit the entry is moved to the front
(`queue.MoveToFront`). -/
def LRU.Lookup {K V : Type} [DecidableEq K] (lru : LRU K V) (key : K) :
    LRU K V × Option V :=
  match lruFind key lru.queue with
  | some v => (⟨(key, v) :: lruRemove key lru.queue⟩, some v)
  | none => (lru, none)

/-- `LRU.Delete`. -/
def LRU.Delete {K V : Type} [DecidableEq K] (lru : LRU K V) (key : K) :
    LRU K V × Option V :=
  match lruFind key lru.queue with
  | some v => (⟨lruRemove key lru.queue⟩, some v)
  | none => (lru, none)

/-- `LRU.Evict`: remove and return the entry at the back of the queue. -/
def LRU.Evict {K V : Type} (lru : LRU K V) : LRU K V × Option (K × V) :=
  match lru.queue.getLast? with
  | some e => (⟨lru.queue.dropLast⟩, some e)
  | none => (lru, none)

/-! ## bucket (pagecache.go) -/

/-- One cache shard.  `pages` is the bucket's slice of the byte arena,
`freed` the free-slot stack (top of stack = end of the list, matching the
Go slice that is popped at its end), and the six counters are
`bucketStats`. -/
structure bucket where
  cache : LRU region page
  freed : List page
  pages : Nat → UInt8
  lookups : Nat
  hits : Nat
  inserts : Nat
  evictions : Nat
  allocs : Nat
  frees : Nat

/-- `bucket.init`: `len(data) / pageSize` slots start on the free stack, in
increasing order of index, each holding the truncated offset
`b.freed[i].offset = uint32(i)` — the conversion wraps for buckets of more
than `2^32` slots.  (The division is on the non-negative values Go uses on
every non-panicking construction path, where `int64` and `Nat` division
agree.) -/
def bucket.init (data : Nat → UInt8) (dataLen pageSize : Nat) : bucket :=
  { cache := ⟨[]⟩
    freed := (List.range (dataLen / pageSize)).map (fun i => page.mk (i % u32))
    pages := data
    lookups := 0, hits := 0, inserts := 0, evictions := 0, allocs := 0, frees := 0 }

/-- `bucket.bytes`: byte `j` of slot `p` (the slice
`b.pages[offset : offset+length]`). -/
def bucket.bytes (b : bucket) (p : page) (shift : Nat) : Nat → UInt8 :=
  fun j => b.pages ((p.offset <<< shift) + j)

/-- `bucket.read`: look `key` up; on a hit, promote it and return the bytes
`copy(data, b.bytes(page, shift)[off:])` would copy into a destination of
length `dlen`, namely `min dlen (pageSize - off)` bytes starting at `off`
inside the slot. -/
def bucket.read (b : bucket) (dlen : Nat) (key : region) (shift off : Nat) :
    bucket × Option (List UInt8) :=
  match b.cache.Lookup key with
  | (c, some p) =>
      ({ b with cache := c, hits := b.hits + 1, lookups := b.lookups + 1 },
       some ((List.range (min dlen ((1 <<< shift) - off))).map
         (fun j => b.bytes p shift (off + j))))
  | (c, none) =>
      ({ b with cache := c, lookups := b.lookups + 1 }, none)

/-- `bucket.get`: pop the free stack if possible, otherwise evict the
least-recently-used entry; `false` when both are empty (the Go code then
returns the zero `page` value). -/
def bucket.get (b : bucket) : bucket × page × Bool :=
  match b.freed.getLast? with
  | some p => ({ b with freed := b.freed.dropLast, allocs := b.allocs + 1 }, p, true)
  | none =>
    match b.cache.Evict with
    | (c, some e) => ({ b with cache := c, evictions := b.evictions + 1 }, e.2, true)
    | (c, none) => ({ b with cache := c }, ⟨0⟩, false)

/-- `bucket.put`: insert `(key, p)`; when an entry bound to `key` already
existed, its slot is appended to the free stack and counted as a free.
The Go signature also receives `shift`, which the body does not use. -/
def bucket.put (b : bucket) (key : region) (p : page) : bucket :=
  match b.cache.Insert key p with
  | (c, some old) =>
      { b with cache := c, freed := b.freed ++ [old],
               frees := b.frees + 1, inserts := b.inserts + 1 }
  | (c, none) => { b with cache := c, inserts := b.inserts + 1 }

/-! ## Cache construction (pagecache.go) -/

/-- Cache configuration; the Go fields are `int64`. -/
structure Config where
  PageSize : Int
  PageCount : Int

/-- Page size after the `<= 0` default in `NewWithConfig` (an `int64`,
`DefaultPageSize = 4096`). -/
def cfgPageSize (config : Config) : Int :=
  if config.PageSize ≤ 0 then 4096 else config.PageSize

/-- Page count after the `<= 0` default in `NewWithConfig` (an `int64`). -/
def cfgPageCount (config : Config) : Int :=
  if config.PageCount ≤ 0 then 1 else config.PageCount

/-- Two's-complement wrap into `int64`: an `int64` operation of
`NewWithConfig` is the mathematical operation followed by this wrap. -/
def wrap64 (n : Int) : Int := (n + 2 ^ 63) % 2 ^ 64 - 2 ^ 63

/-- Fuel-driven bit length: `bitLenAux fuel n` is the bit length of `n`
whenever `n ≤ fuel`.  Structural recursion on the fuel keeps the function
reducible by the kernel. -/
def bitLenAux : Nat → Nat → Nat
  | 0, _ => 0
  | fuel + 1, n => if n = 0 then 0 else bitLenAux fuel (n / 2) + 1

/-- `bits.Len64`: the number of bits needed to represent `n`, `0` for `0`
(`bitLen_eq_size` identifies it with Mathlib's `Nat.size`). -/
def bitLen (n : Nat) : Nat := bitLenAux n n

/-- The `shift` computed in `NewWithConfig`:
`bits.Len64(uint64(pageSize - 1))` (`pageSize ≥ 1` after the default, so
the `uint64` conversion is exact and the shift is at most `63`). -/
def effShift (config : Config) : Nat := bitLen (cfgPageSize config - 1).toNat

/-- Effective page size `int64(1) << shift`: at `shift = 63` the `int64`
value wraps to `-2^63`. -/
def effPageSize (config : Config) : Int := wrap64 (2 ^ effShift config)

/-- Effective page count: rounded up to the next multiple of `numBuckets`
in `int64` arithmetic.  `pageCount ≥ 1` after the default, so Go's
truncated `/` and `%` are taken at a non-negative value; the final
multiplication can wrap. -/
def effPageCount (config : Config) : Int :=
  if Int.tmod (cfgPageCount config) 64 ≠ 0 then
    wrap64 ((Int.tdiv (cfgPageCount config) 64 + 1) * 64)
  else cfgPageCount config

/-- The whole cache: the per-instance hash seed is abstracted as the hash
function `region → Fin numBuckets` it induces. -/
structure Cache where
  hash : region → Fin numBuckets
  shift : Nat
  buckets : Fin numBuckets → bucket

/-- `cacheSize := pageSize * pageCount`: an `int64` product, which wraps. -/
def cacheSizeOf (config : Config) : Int :=
  wrap64 (effPageSize config * effPageCount config)

/-- `bucketSize := cacheSize / numBuckets`, Go's truncated division. -/
def bucketSizeOf (config : Config) : Int := Int.tdiv (cacheSizeOf config) 64

/-- `NewWithConfig`: defaults, rounding and the size product in `int64`,
then `make([]byte, cacheSize)` — which panics when the wrapped size is
negative (`none`) — sliced evenly into `numBuckets` buckets of
`bucketSize / pageSize` slots each.  On every non-panicking path the
slot-count division takes the non-negative values modelled by the `toNat`
projections (when `pageSize` wrapped to `-2^63` a non-panicking
`cacheSize` is `0`, and both Go and the model count `0` slots).  The
arena is zeroed, so each bucket's slice is the constant-`0` byte
function. -/
def NewWithConfig (config : Config) (seed : region → Fin numBuckets) : Option Cache :=
  if cacheSizeOf config < 0 then none
  else some
    { hash := seed
      shift := effShift config
      buckets := fun _ => bucket.init (fun _ => 0) (bucketSizeOf config).toNat
        (effPageSize config).toNat }

/-! ## cachedFile.ReadAt (pagecache.go) -/

/-- Result of one backing-source `ReadAt(data, off)` call: the count `rn`,
the bytes placed in `data[0:rn]` (as a function of the index), and the
returned error. -/
structure SrcRes where
  rn : Nat
  bytes : Nat → UInt8
  err : Option Err

/-- A backing source maps (requested length, offset) to a result. -/
abbrev FileSrc := Nat → Nat → SrcRes

/-- Result of a cached read: final cache state, the bytes actually written
to the destination (in order), the returned count `n`, the returned error,
and the trace of (length, offset) requests issued to the backing source. -/
structure RRes where
  cache : Cache
  out : List UInt8
  n : Nat
  err : Option Err
  calls : List (Nat × Nat)

/-- Overwrite `len` bytes starting at `start` with `src` (what the backing
source writes into the arena slice handed to it). -/
def writeBytes (f : Nat → UInt8) (start len : Nat) (src : Nat → UInt8) : Nat → UInt8 :=
  fun a => if start ≤ a ∧ a < start + len then src (a - start) else f a

/-- The `for` loop of `cachedFile.ReadAt`, with fuel (each iteration of the
Go loop advances by `pageSize - readOffset ≥ 1` bytes on every non-panicking
path, so `blen + 1` fuel is always enough; `fuelOut` is unreachable there). -/
def readLoop (src : FileSrc) (id sz shift : Nat) :
    Nat → Cache → Nat → List UInt8 → Nat → Nat → List (Nat × Nat) → RRes
  | 0, c, _blen, out, n, _off, calls => ⟨c, out, n, some .fuelOut, calls⟩
  | fuel + 1, c, blen, out, n, off, calls =>
    let pageSize := 1 <<< shift
    let key : region := ⟨id, (off >>> shift) % u32⟩
    let pageOffset := key.offset <<< shift
    let readOffset := off - pageOffset
    let i := c.hash key
    match (c.buckets i).read (blen - n) key shift readOffset with
    | (b1, some copied) =>
      let c1 : Cache := { c with buckets := Function.update c.buckets i b1 }
      if readOffset > pageSize then ⟨c1, out, n, some .panicSlice, calls⟩
      else
        let out1 := out ++ copied
        let n1 := n + (pageSize - readOffset)
        if blen ≤ n1 then ⟨c1, out1, blen, none, calls⟩
        else if sz ≤ off + (pageSize - readOffset) then ⟨c1, out1, n1, some .eof, calls⟩
        else readLoop src id sz shift fuel c1 blen out1 n1 (off + (pageSize - readOffset)) calls
    | (b1, none) =>
      match b1.get with
      | (b2, p, ok) =>
        let c1 : Cache := { c with buckets := Function.update c.buckets i b2 }
        if ok = false then ⟨c1, out, n, some .errNoPages, calls⟩
        else
          let r := src pageSize pageOffset
          let calls1 := calls ++ [(pageSize, pageOffset)]
          let slotOff := p.offset <<< shift
          let b3 : bucket := { b2 with pages := writeBytes b2.pages slotOff r.rn r.bytes }
          let c2 : Cache := { c with buckets := Function.update c.buckets i b3 }
          if r.rn < pageSize ∧ r.err ≠ some .eof then
            ⟨c2, out, n, some (r.err.getD .errNoProgress), calls1⟩
          else if readOffset > r.rn then ⟨c2, out, n, some .panicSlice, calls1⟩
          else
            let copied := (List.range (min (blen - n) (r.rn - readOffset))).map
              (fun j => b3.pages (slotOff + (readOffset + j)))
            let b4 := b3.put key p
            let c3 : Cache := { c with buckets := Function.update c.buckets i b4 }
            let out1 := out ++ copied
            let n1 := n + (pageSize - readOffset)
            if blen ≤ n1 then ⟨c3, out1, blen, none, calls1⟩
            else if sz ≤ off + (pageSize - readOffset) then ⟨c3, out1, n1, some .eof, calls1⟩
            else readLoop src id sz shift fuel c3 blen out1 n1 (off + (pageSize - readOffset)) calls1

/-- `cachedFile.ReadAt`: range check, end-of-input check, clamping of the
destination to the logical size, then the page loop.  `id` and `sz` are the
`cachedFile` fields, `blen` the destination length, `off` the request
offset. -/
def ReadAt (c : Cache) (src : FileSrc) (id sz blen : Nat) (off : Int) : RRes :=
  if off < 0 then ⟨c, [], 0, some .rangeErr, []⟩
  else if (sz : Int) ≤ off then ⟨c, [], 0, some .eof, []⟩
  else
    let off0 := off.toNat
    let blen1 := min blen (sz - off0)
    if blen1 = 0 then ⟨c, [], 0, none, []⟩
    else readLoop src id sz c.shift (blen1 + 1) c blen1 [] 0 off0 []

/-- A well-behaved backing source over `content` with logical size `sz`:
reads return `min len (sz - off)` bytes and signal `io.EOF` exactly when
that is short of the request. -/
def honestSrc (content : Nat → UInt8) (sz : Nat) : FileSrc :=
  fun len off =>
    ⟨min len (sz - off), fun j => content (off + j),
     if sz - off < len then some .eof else none⟩

/-- Run a sequence of (offset, length) reads through one cached file,
threading the cache state. -/
def runReads (src : FileSrc) (id sz : Nat) : Cache → List (Int × Nat) → Cache
  | c, [] => c
  | c, (off, blen) :: rest => runReads src id sz (ReadAt c src id sz blen off).cache rest

/-! ## Bucket operations as a transition system

The bucket's users interleave `read`, `get` (acquire a slot) and `put`
(install a slot).  `bstep` runs one such operation, tracking in `pend` the
slots handed out by `get` and not yet installed by `put` (the Go caller
keeps them in a local variable between the two calls; a slot dropped on the
fetch-error path of `ReadAt` simply stays in `pend` forever). -/

inductive bop where
  | readK (k : region)
  | getSlot
  | putK (k : region)

/-- One bucket operation.  `read`'s destination length and intra-page
offset do not affect the bucket state, so they are fixed to `0` here. -/
def bstep (shift : Nat) : bucket × List page → bop → bucket × List page
  | (b, pend), .readK k => ((b.read 0 k shift 0).1, pend)
  | (b, pend), .getSlot =>
      match b.get with
      | (b1, p, ok) => (b1, if ok then p :: pend else pend)
  | (b, pend), .putK k =>
      match pend with
      | [] => (b, pend)
      | p :: rest => (b.put k p, rest)

/-- Run a sequence of bucket operations from a freshly initialized bucket
owning `numPages` slots. -/
def runB (shift numPages : Nat) (ops : List bop) : bucket × List page :=
  ops.foldl (bstep shift) (bucket.init (fun _ => 0) (numPages * (1 <<< shift)) (1 <<< shift), [])

/-- The slots currently bound to keys in the bucket's LRU index. -/
def slotsOf (b : bucket) : List page := b.cache.queue.map Prod.snd

/-- All slots a bucket with `numPages` pages ever owns. -/
def allSlots (numPages : Nat) : List page := (List.range numPages).map page.mk

/-- Slot-partition invariant: the free stack, the indexed slots, and the
slots held by in-flight (or abandoned) misses together hold each allocated
slot exactly once. -/
def BPart (b : bucket) (pend : List page) (numPages : Nat) : Prop :=
  (b.freed ++ slotsOf b ++ pend).Perm (allSlots numPages)

/-- Counter relations that hold in every reachable bucket state:
hits never exceed lookups, allocations minus frees track the free-stack
deficit, and inserts count evictions, replacement frees and live entries. -/
def CtrInv (b : bucket) (numPages : Nat) : Prop :=
  b.hits ≤ b.lookups ∧
  b.allocs + b.freed.length = b.frees + numPages ∧
  b.inserts = b.evictions + b.frees + b.cache.Len

/-! ## LRU recency semantics

A ghost timestamp per key records the time of its most recent insert or
successful lookup.  The recency queue is provably sorted by strictly
decreasing timestamp, so the tail returned by `Evict` is exactly the
least-recently-touched entry. -/

inductive lop (K V : Type) where
  | ins (k : K) (v : V)
  | look (k : K)
  | evic

/-- LRU state together with the ghost timestamps: `touch k` is the time of
the last insert-or-successful-lookup of `k`, `time` the next tick. -/
structure LState (K V : Type) where
  lru : LRU K V
  touch : K → Nat
  time : Nat

def lstep {K V : Type} [DecidableEq K] (s : LState K V) : lop K V → LState K V
  | .ins k v => ⟨(s.lru.Insert k v).1, Function.update s.touch k s.time, s.time + 1⟩
  | .look k =>
    match s.lru.Lookup k with
    | (l1, some _) => ⟨l1, Function.update s.touch k s.time, s.time + 1⟩
    | (l1, none) => ⟨l1, s.touch, s.time + 1⟩
  | .evic => ⟨(s.lru.Evict).1, s.touch, s.time + 1⟩

/-- Run a sequence of inserts, lookups and evictions from an empty LRU. -/
def runL {K V : Type} [DecidableEq K] (ops : List (lop K V)) : LState K V :=
  ops.foldl lstep ⟨⟨[]⟩, fun _ => 0, 1⟩

/-- Queue timestamps strictly decrease from front to back, all timestamps
are in the past, and keys are distinct. -/
def LInv {K V : Type} (s : LState K V) : Prop :=
  (s.lru.queue.map (fun e => s.touch e.1)).Pairwise (· > ·) ∧
  (∀ e ∈ s.lru.queue, s.touch e.1 < s.time) ∧
  (s.lru.queue.map Prod.fst).Nodup

/-! ## Content invariant for cached pages

Every entry `(k, p)` of a bucket's LRU index holds, in slot `p`, the bytes
of the backing content for page `k.offset`, valid up to the end of the page
or the logical size, whichever comes first (a short final page's tail
bytes in the slot are stale and are never copied out for in-range reads). -/

def BContent (b : bucket) (content : Nat → UInt8) (sz shift : Nat) : Prop :=
  ∀ e ∈ b.cache.queue,
    e.1.offset <<< shift < sz ∧
    ∀ j, j < min (1 <<< shift) (sz - e.1.offset <<< shift) →
      b.pages (e.2.offset <<< shift + j) = content (e.1.offset <<< shift + j)

/-- The full cache invariant: every bucket partitions its slots and serves
valid bytes. -/
def CInv (c : Cache) (numPages : Nat) (content : Nat → UInt8) (sz shift : Nat) : Prop :=
  ∀ i, BPart (c.buckets i) [] numPages ∧ BContent (c.buckets i) content sz shift

/-- The bucket after the backing source has written `rn` bytes `g` into the
arena slice of slot `p` (proof-side abbreviation for the state produced by
`f.file.ReadAt(data, pageOffset)` in the miss path). -/
def writePage (b : bucket) (p : page) (shift rn : Nat) (g : Nat → UInt8) : bucket :=
  { b with pages := writeBytes b.pages (p.offset <<< shift) rn g }

/-! ## A backing source that fails at one page

`failSrc` behaves like the honest source except at page offset `cut`, where
it returns `rn1` bytes and the error `e` (the scenario of the short-read
abort path in `cachedFile.ReadAt`). -/

def failSrc (content : Nat → UInt8) (sz cut rn1 : Nat) (e : Option Err) : FileSrc :=
  fun len off =>
    if off = cut then ⟨rn1, fun j => content (off + j), e⟩
    else honestSrc content sz len off

/-- All cached pages start strictly before `cut`. -/
def BelowCut (c : Cache) (cut shift : Nat) : Prop :=
  ∀ i, ∀ e ∈ (c.buckets i).cache.queue, e.1.offset <<< shift < cut

/-- A degenerate hash seed sending every region to bucket 0, used in the
concrete executions below (the Go seed is random per instance; any value is
legal). -/
def hash0 : region → Fin numBuckets := fun _ => ⟨0, by decide⟩

/-- A small concrete cache used by witnesses of the cache-generic claims:
shift 1 (two-byte pages), one slot per bucket. -/
def cache0 : Cache := ⟨hash0, 1, fun _ => bucket.init (fun _ => 0) 2 2⟩

/-! ## List helper lemmas -/

theorem getLast?_decomp {α : Type} {q : List α} {e : α} (h : q.getLast? = some e) :
    q = q.dropLast ++ [e] := by
  induction q using List.reverseRecOn with
  | nil => simp at h
  | append_singleton L b _ => simp at h; subst h; simp

theorem lruFind_mem {K V : Type} [DecidableEq K] {key : K} {v : V} {q : List (K × V)}
    (h : lruFind key q = some v) : (key, v) ∈ q := by
  induction q with
  | nil => simp [lruFind] at h
  | cons e es ih =>
    obtain ⟨k1, v1⟩ := e
    by_cases heq : k1 = key
    · subst heq
      simp [lruFind] at h
      subst h
      exact List.mem_cons_self _ _
    · simp [lruFind, heq] at h
      exact List.mem_cons_of_mem _ (ih h)

theorem lruFind_eq_none_iff {K V : Type} [DecidableEq K] {key : K} {q : List (K × V)} :
    lruFind key q = none ↔ key ∉ q.map Prod.fst := by
  induction q with
  | nil => simp [lruFind]
  | cons e es ih =>
    obtain ⟨k1, v1⟩ := e
    by_cases heq : k1 = key
    · subst heq; simp [lruFind]
    · simp [lruFind, heq, ih, Ne.symm heq]

theorem lruRemove_sublist {K V : Type} [DecidableEq K] (key : K) (q : List (K × V)) :
    (lruRemove key q).Sublist q := by
  induction q with
  | nil => simp [lruRemove]
  | cons e es ih =>
    rw [lruRemove]
    split
    · exact List.sublist_cons_self e es
    · exact ih.cons₂ e

theorem lruRemove_of_not_mem {K V : Type} [DecidableEq K] {key : K} {q : List (K × V)}
    (h : key ∉ q.map Prod.fst) : lruRemove key q = q := by
  induction q with
  | nil => rfl
  | cons e es ih =>
    simp only [List.map_cons, List.mem_cons, not_or] at h
    rw [lruRemove, if_neg (fun he => h.1 he.symm), ih h.2]

theorem lruFind_perm {K V : Type} [DecidableEq K] {key : K} {v : V} {q : List (K × V)}
    (h : lruFind key q = some v) : q.Perm ((key, v) :: lruRemove key q) := by
  induction q with
  | nil => simp [lruFind] at h
  | cons e es ih =>
    obtain ⟨k1, v1⟩ := e
    by_cases heq : k1 = key
    · subst heq
      simp [lruFind] at h
      subst h
      rw [lruRemove, if_pos rfl]
    · simp [lruFind, heq] at h
      rw [lruRemove, if_neg heq]
      exact ((ih h).cons _).trans (List.Perm.swap _ _ _)

theorem lruRemove_key_not_mem {K V : Type} [DecidableEq K] {key : K} {q : List (K × V)}
    (h : (q.map Prod.fst).Nodup) : key ∉ (lruRemove key q).map Prod.fst := by
  induction q with
  | nil => simp [lruRemove]
  | cons e es ih =>
    obtain ⟨k1, v1⟩ := e
    simp only [List.map_cons, List.nodup_cons] at h
    by_cases heq : k1 = key
    · subst heq
      rw [lruRemove, if_pos rfl]
      exact h.1
    · rw [lruRemove, if_neg heq]
      simp only [List.map_cons, List.mem_cons]
      rintro (rfl | hm)
      · exact heq rfl
      · exact ih h.2 hm

/-! ## Case analyses of the bucket operations -/

theorem read_spec (b : bucket) (dlen : Nat) (key : region) (shift off : Nat) :
    (∃ p, lruFind key b.cache.queue = some p ∧
      b.read dlen key shift off =
        ({ b with cache := ⟨(key, p) :: lruRemove key b.cache.queue⟩,
                  hits := b.hits + 1, lookups := b.lookups + 1 },
         some ((List.range (min dlen ((1 <<< shift) - off))).map
           (fun j => b.bytes p shift (off + j))))) ∨
    (lruFind key b.cache.queue = none ∧
      b.read dlen key shift off = ({ b with lookups := b.lookups + 1 }, none)) := by
  cases hfind : lruFind key b.cache.queue with
  | some p =>
    refine Or.inl ⟨p, rfl, ?_⟩
    simp [bucket.read, LRU.Lookup, hfind]
  | none =>
    refine Or.inr ⟨rfl, ?_⟩
    simp [bucket.read, LRU.Lookup, hfind]

theorem get_spec (b : bucket) :
    (∃ p, b.freed.getLast? = some p ∧
       b.get = ({ b with freed := b.freed.dropLast, allocs := b.allocs + 1 }, p, true)) ∨
    (b.freed = [] ∧ ∃ e, b.cache.queue.getLast? = some e ∧
       b.get = ({ b with
                  cache := ⟨b.cache.queue.dropLast⟩,
                  evictions := b.evictions + 1 }, e.2, true)) ∨
    (b.freed = [] ∧ b.cache.queue = [] ∧ b.get = (b, ⟨0⟩, false)) := by
  cases hl : b.freed.getLast? with
  | some p => exact Or.inl ⟨p, rfl, by simp [bucket.get, hl]⟩
  | none =>
    have hfe : b.freed = [] := by simpa using hl
    cases hq : b.cache.queue.getLast? with
    | some e =>
      refine Or.inr (Or.inl ⟨hfe, e, rfl, ?_⟩)
      simp [bucket.get, hl, LRU.Evict, hq]
    | none =>
      have hqe : b.cache.queue = [] := by simpa using hq
      refine Or.inr (Or.inr ⟨hfe, hqe, ?_⟩)
      simp [bucket.get, hl, LRU.Evict, hq]

theorem put_spec (b : bucket) (key : region) (p : page) :
    (∃ old, lruFind key b.cache.queue = some old ∧
      b.put key p = { b with
                      cache := ⟨(key, p) :: lruRemove key b.cache.queue⟩,
                      freed := b.freed ++ [old], frees := b.frees + 1,
                      inserts := b.inserts + 1 }) ∨
    (lruFind key b.cache.queue = none ∧
      b.put key p = { b with
                      cache := ⟨(key, p) :: b.cache.queue⟩,
                      inserts := b.inserts + 1 }) := by
  cases hfind : lruFind key b.cache.queue with
  | some old => exact Or.inl ⟨old, rfl, by simp [bucket.put, LRU.Insert, hfind]⟩
  | none => exact Or.inr ⟨rfl, by simp [bucket.put, LRU.Insert, hfind]⟩

/-! ## Slot-partition invariant preservation -/

theorem BPart_iff_count {b : bucket} {pend : List page} {numPages : Nat} :
    BPart b pend numPages ↔
      ∀ a, b.freed.count a + ((slotsOf b).count a + pend.count a) =
        (allSlots numPages).count a := by
  rw [BPart, List.perm_iff_count]
  constructor <;> intro h a <;> have := h a <;>
    simp only [List.count_append] at * <;> omega

theorem BPart_read {b : bucket} {pend : List page} {numPages dlen shift off : Nat} {key : region}
    (h : BPart b pend numPages) : BPart ((b.read dlen key shift off).1) pend numPages := by
  rcases read_spec b dlen key shift off with ⟨p, hfind, heq⟩ | ⟨hfind, heq⟩
  · rw [heq]
    have hq : (((key, p) :: lruRemove key b.cache.queue).map Prod.snd).Perm
        (b.cache.queue.map Prod.snd) := ((lruFind_perm hfind).map Prod.snd).symm
    exact (((hq.append_left b.freed).append_right pend)).trans h
  · rw [heq]; exact h

theorem BPart_get {b b1 : bucket} {pend : List page} {numPages : Nat} {p : page} {ok : Bool}
    (h : BPart b pend numPages) (hg : b.get = (b1, p, ok)) :
    BPart b1 (if ok then p :: pend else pend) numPages := by
  rcases get_spec b with ⟨q, hl, heq⟩ | ⟨hfe, e, hq, heq⟩ | ⟨hfe, hqe, heq⟩ <;>
    rw [heq] at hg <;> simp only [Prod.mk.injEq] at hg <;>
    rw [← hg.1, ← hg.2.1, ← hg.2.2]
  · rw [if_pos rfl]
    rw [BPart_iff_count] at h ⊢
    intro a
    have hc := h a
    simp only [slotsOf] at hc ⊢
    rw [getLast?_decomp hl] at hc
    simp only [List.count_append, List.count_cons, List.count_nil] at hc ⊢
    by_cases hap : q = a <;> simp [hap] at hc ⊢ <;> omega
  · rw [if_pos rfl]
    rw [BPart_iff_count] at h ⊢
    intro a
    have hc := h a
    simp only [slotsOf] at hc ⊢
    rw [getLast?_decomp hq] at hc
    simp only [List.count_append, List.count_cons, List.count_nil, List.map_append,
      List.map_cons, List.map_nil] at hc ⊢
    by_cases hap : e.2 = a <;> simp [hap] at hc ⊢ <;> omega
  · simpa using h

theorem BPart_put {b : bucket} {pend : List page} {numPages : Nat} {key : region} {p : page}
    (h : BPart b (p :: pend) numPages) : BPart (b.put key p) pend numPages := by
  rcases put_spec b key p with ⟨old, hfind, heq⟩ | ⟨hfind, heq⟩ <;> rw [heq] <;>
    rw [BPart_iff_count] at h ⊢ <;> intro a <;> have hc := h a
  · have hcount := ((lruFind_perm hfind).map Prod.snd).count_eq a
    simp only [List.map_cons] at hcount
    simp only [List.count_append, List.count_cons, List.count_nil, slotsOf,
      List.map_cons] at hc hcount ⊢
    by_cases hap : p = a <;> by_cases hao : old = a <;>
      simp [hap, hao] at hc hcount ⊢ <;> omega
  · simp only [List.count_append, List.count_cons, List.count_nil, slotsOf,
      List.map_cons] at hc ⊢
    by_cases hap : p = a <;> simp [hap] at hc ⊢ <;> omega

theorem allSlots_nodup (numPages : Nat) : (allSlots numPages).Nodup :=
  (List.nodup_range numPages).map (fun a b hab => by simpa using hab)

theorem BPart_not_mem_slots {b : bucket} {p : page} {pend : List page} {numPages : Nat}
    (h : BPart b (p :: pend) numPages) : p ∉ slotsOf b := by
  intro hmem
  have hc := (BPart_iff_count.mp h) p
  have h1 : 0 < (slotsOf b).count p := List.count_pos_iff.mpr hmem
  have h2 : (allSlots numPages).count p ≤ 1 :=
    List.nodup_iff_count_le_one.mp (allSlots_nodup numPages) p
  simp only [List.count_cons_self] at hc
  omega

theorem BPart_get_ok {b : bucket} {numPages : Nat}
    (h : BPart b [] numPages) (hn : 1 ≤ numPages) : (b.get).2.2 = true := by
  rcases get_spec b with ⟨p, hl, heq⟩ | ⟨hfe, e, hq, heq⟩ | ⟨hfe, hqe, heq⟩ <;> rw [heq]
  exfalso
  have hlen := h.length_eq
  simp [slotsOf, hfe, hqe, allSlots] at hlen
  omega

theorem pageSize_pos (shift : Nat) : 0 < 1 <<< shift := by
  rw [Nat.shiftLeft_eq, one_mul]
  exact Nat.two_pow_pos shift

theorem BPart_init (data : Nat → UInt8) (dataLen pageSize : Nat)
    (h : dataLen / pageSize ≤ u32) :
    BPart (bucket.init data dataLen pageSize) [] (dataLen / pageSize) := by
  unfold BPart bucket.init slotsOf allSlots
  have hmap : (List.range (dataLen / pageSize)).map (fun i => page.mk (i % u32)) =
      (List.range (dataLen / pageSize)).map page.mk := by
    apply List.map_congr_left
    intro i hi
    rw [Nat.mod_eq_of_lt (lt_of_lt_of_le (List.mem_range.mp hi) h)]
  simp [hmap]

theorem BPart_bstep {st : bucket × List page} {numPages : Nat} {shift : Nat} {op : bop}
    (h : BPart st.1 st.2 numPages) :
    BPart (bstep shift st op).1 (bstep shift st op).2 numPages := by
  obtain ⟨b, pend⟩ := st
  cases op with
  | readK k => exact BPart_read h
  | getSlot => exact BPart_get h (rfl : b.get = ((b.get).1, (b.get).2.1, (b.get).2.2))
  | putK k =>
    cases pend with
    | nil => exact h
    | cons p rest => exact BPart_put h

theorem BPart_foldl {numPages : Nat} (shift : Nat) (ops : List bop) (st : bucket × List page)
    (h : BPart st.1 st.2 numPages) :
    BPart (ops.foldl (bstep shift) st).1 (ops.foldl (bstep shift) st).2 numPages := by
  induction ops generalizing st with
  | nil => simpa using h
  | cons op rest ih =>
    rw [List.foldl_cons]
    exact ih _ (BPart_bstep h)

/-! ## Counter invariants for the statistics claims -/

theorem lruRemove_length {K V : Type} [DecidableEq K] {key : K} {v : V} {q : List (K × V)}
    (h : lruFind key q = some v) : (lruRemove key q).length + 1 = q.length := by
  have := (lruFind_perm h).length_eq
  simp at this
  omega

theorem CtrInv_bstep {st : bucket × List page} {numPages : Nat} {shift : Nat} {op : bop}
    (h : CtrInv st.1 numPages) : CtrInv (bstep shift st op).1 numPages := by
  obtain ⟨b, pend⟩ := st
  replace h : CtrInv b numPages := h
  obtain ⟨h1, h2, h3⟩ := h
  cases op with
  | readK k =>
    show CtrInv ((b.read 0 k shift 0).1) numPages
    rcases read_spec b 0 k shift 0 with ⟨p, hfind, heq⟩ | ⟨hfind, heq⟩ <;> rw [heq] <;>
      refine ⟨by simp; omega, by simpa using h2, ?_⟩
    · have hlen := lruRemove_length hfind
      simp only [LRU.Len] at h3 ⊢
      simp only [List.length_cons]
      omega
    · simpa [LRU.Len] using h3
  | getSlot =>
    show CtrInv ((b.get).1) numPages
    rcases get_spec b with ⟨p, hl, heq⟩ | ⟨hfe, e, hq, heq⟩ | ⟨hfe, hqe, heq⟩ <;> rw [heq]
    · have hne : b.freed ≠ [] := by
        intro hnil
        rw [hnil] at hl
        simp at hl
      have : b.freed.length ≠ 0 := fun h0 => hne (List.eq_nil_of_length_eq_zero h0)
      refine ⟨h1, ?_, h3⟩
      simp only [List.length_dropLast]
      omega
    · have hne : b.cache.queue.length ≠ 0 := by
        intro h0
        rw [List.eq_nil_of_length_eq_zero h0] at hq
        simp at hq
      refine ⟨h1, h2, ?_⟩
      simp only [LRU.Len, List.length_dropLast] at h3 ⊢
      omega
    · exact ⟨h1, h2, h3⟩
  | putK k =>
    cases pend with
    | nil => exact ⟨h1, h2, h3⟩
    | cons p rest =>
      show CtrInv (b.put k p) numPages
      rcases put_spec b k p with ⟨old, hfind, heq⟩ | ⟨hfind, heq⟩ <;> rw [heq]
      · have hlen := lruRemove_length hfind
        refine ⟨h1, ?_, ?_⟩ <;>
          simp only [LRU.Len, List.length_append, List.length_cons, List.length_nil] at * <;>
          omega
      · refine ⟨h1, h2, ?_⟩
        simp only [LRU.Len, List.length_cons] at h3 ⊢
        omega

theorem CtrInv_foldl {numPages : Nat} (shift : Nat) (ops : List bop) (st : bucket × List page)
    (h : CtrInv st.1 numPages) : CtrInv (ops.foldl (bstep shift) st).1 numPages := by
  induction ops generalizing st with
  | nil => simpa using h
  | cons op rest ih =>
    rw [List.foldl_cons]
    exact ih _ (CtrInv_bstep h)

theorem CtrInv_init (shift numPages : Nat) :
    CtrInv (bucket.init (fun _ => 0) (numPages * (1 <<< shift)) (1 <<< shift)) numPages := by
  unfold CtrInv bucket.init LRU.Len
  simp [Nat.mul_div_cancel _ (pageSize_pos shift)]

theorem LInv_push {K V : Type} [DecidableEq K] {q q1 : List (K × V)} {touch : K → Nat}
    {time : Nat} {k : K} {v : V}
    (hsub : q1.Sublist q)
    (hknot : k ∉ q1.map Prod.fst)
    (hsort : (q.map (fun e => touch e.1)).Pairwise (· > ·))
    (htime : ∀ e ∈ q, touch e.1 < time) :
    ((((k, v) :: q1).map (fun e => Function.update touch k time e.1)).Pairwise (· > ·)) ∧
    (∀ e ∈ (k, v) :: q1, Function.update touch k time e.1 < time + 1) := by
  have hq1 : ∀ e ∈ q1, Function.update touch k time e.1 = touch e.1 := by
    intro e he
    have : e.1 ≠ k := fun hek => hknot (hek ▸ List.mem_map_of_mem Prod.fst he)
    exact Function.update_noteq this _ _
  have hmap : q1.map (fun e => Function.update touch k time e.1) =
      q1.map (fun e => touch e.1) := List.map_congr_left hq1
  constructor
  · rw [List.map_cons, List.pairwise_cons, hmap]
    constructor
    · intro x hx
      obtain ⟨e, he, rfl⟩ := List.mem_map.mp hx
      have := htime e (hsub.subset he)
      simp [Function.update_same]
      omega
    · exact hsort.sublist (hsub.map _)
  · intro e he
    rcases List.mem_cons.mp he with rfl | he1
    · simp [Function.update_same]
    · rw [hq1 e he1]
      have := htime e (hsub.subset he1)
      omega

theorem LInv_lstep {K V : Type} [DecidableEq K] {s : LState K V} (op : lop K V)
    (h : LInv s) : LInv (lstep s op) := by
  obtain ⟨hsort, htime, hnodup⟩ := h
  cases op with
  | ins k v =>
    show LInv ⟨(s.lru.Insert k v).1, Function.update s.touch k s.time, s.time + 1⟩
    cases hfind : lruFind k s.lru.queue with
    | some prev =>
      have hknot := @lruRemove_key_not_mem K V _ k s.lru.queue hnodup
      have hpush := @LInv_push K V _ s.lru.queue (lruRemove k s.lru.queue) s.touch s.time
        k v (lruRemove_sublist k s.lru.queue) hknot hsort htime
      refine ⟨?_, ?_, ?_⟩
      · simpa [LRU.Insert, hfind] using hpush.1
      · simpa [LRU.Insert, hfind] using hpush.2
      · simp only [LRU.Insert, hfind, List.map_cons, List.nodup_cons]
        exact ⟨hknot, hnodup.sublist ((lruRemove_sublist k s.lru.queue).map _)⟩
    | none =>
      have hknot := lruFind_eq_none_iff.mp hfind
      have hpush := @LInv_push K V _ s.lru.queue s.lru.queue s.touch s.time
        k v (List.Sublist.refl s.lru.queue) hknot hsort htime
      refine ⟨?_, ?_, ?_⟩
      · simpa [LRU.Insert, hfind] using hpush.1
      · simpa [LRU.Insert, hfind] using hpush.2
      · simp only [LRU.Insert, hfind, List.map_cons, List.nodup_cons]
        exact ⟨hknot, hnodup⟩
  | look k =>
    cases hfind : lruFind k s.lru.queue with
    | some v =>
      have hlook : s.lru.Lookup k = (⟨(k, v) :: lruRemove k s.lru.queue⟩, some v) := by
        simp [LRU.Lookup, hfind]
      have hstep : lstep s (.look k) =
          ⟨⟨(k, v) :: lruRemove k s.lru.queue⟩, Function.update s.touch k s.time,
            s.time + 1⟩ := by
        simp only [lstep, hlook]
      rw [hstep]
      have hknot := @lruRemove_key_not_mem K V _ k s.lru.queue hnodup
      have hpush := @LInv_push K V _ s.lru.queue (lruRemove k s.lru.queue) s.touch s.time
        k v (lruRemove_sublist k s.lru.queue) hknot hsort htime
      refine ⟨hpush.1, hpush.2, ?_⟩
      simp only [List.map_cons, List.nodup_cons]
      exact ⟨hknot, hnodup.sublist ((lruRemove_sublist k s.lru.queue).map _)⟩
    | none =>
      have hlook : s.lru.Lookup k = (s.lru, none) := by
        simp [LRU.Lookup, hfind]
      have hstep : lstep s (.look k) = ⟨s.lru, s.touch, s.time + 1⟩ := by
        simp only [lstep, hlook]
      rw [hstep]
      exact ⟨hsort, fun e he => Nat.lt_succ_of_lt (htime e he), hnodup⟩
  | evic =>
    show LInv ⟨(s.lru.Evict).1, s.touch, s.time + 1⟩
    cases hlast : s.lru.queue.getLast? with
    | some e =>
      have hsub := List.dropLast_sublist s.lru.queue
      refine ⟨?_, ?_, ?_⟩
      · simp only [LRU.Evict, hlast]
        exact hsort.sublist (hsub.map _)
      · simp only [LRU.Evict, hlast]
        exact fun e1 he1 => Nat.lt_succ_of_lt (htime e1 (hsub.subset he1))
      · simp only [LRU.Evict, hlast]
        exact hnodup.sublist (hsub.map _)
    | none =>
      simp only [LRU.Evict, hlast]
      exact ⟨hsort, fun e he => Nat.lt_succ_of_lt (htime e he), hnodup⟩

theorem LInv_runL {K V : Type} [DecidableEq K] (ops : List (lop K V)) : LInv (runL ops) := by
  rw [runL]
  generalize hinit : (⟨⟨[]⟩, fun _ => 0, 1⟩ : LState K V) = s0
  have h0 : LInv s0 := by rw [← hinit]; exact ⟨by simp, by simp, by simp⟩
  clear hinit
  induction ops generalizing s0 with
  | nil => simpa using h0
  | cons op rest ih =>
    rw [List.foldl_cons]
    exact ih _ (LInv_lstep op h0)

theorem pairwise_last_min {L : List Nat} {a : Nat} (h : (L ++ [a]).Pairwise (· > ·)) :
    ∀ x ∈ L ++ [a], a ≤ x := by
  rw [List.pairwise_append] at h
  intro x hx
  rcases List.mem_append.mp hx with hL | ha
  · exact le_of_lt (h.2.2 x hL a (List.mem_singleton.mpr rfl))
  · rw [List.mem_singleton.mp ha]

theorem page_eq_of_offset {p q : page} (h : p.offset = q.offset) : p = q := by
  cases p
  cases q
  simpa using h

theorem writeBytes_out {f : Nat → UInt8} {start len a : Nat} (g : Nat → UInt8)
    (h : a < start ∨ start + len ≤ a) : writeBytes f start len g a = f a := by
  unfold writeBytes
  rw [if_neg]
  rintro ⟨h1, h2⟩
  omega

theorem writeBytes_in {f : Nat → UInt8} {start len a : Nat} (g : Nat → UInt8)
    (h1 : start ≤ a) (h2 : a < start + len) :
    writeBytes f start len g a = g (a - start) := by
  unfold writeBytes
  rw [if_pos ⟨h1, h2⟩]

theorem BContent_read {b : bucket} {content : Nat → UInt8} {sz shift dlen off : Nat}
    {key : region} (h : BContent b content sz shift) :
    BContent ((b.read dlen key shift off).1) content sz shift := by
  rcases read_spec b dlen key shift off with ⟨p, hfind, heq⟩ | ⟨hfind, heq⟩ <;> rw [heq]
  · intro e he
    rcases List.mem_cons.mp he with rfl | he1
    · exact h _ (lruFind_mem hfind)
    · exact h _ ((lruRemove_sublist key b.cache.queue).subset he1)
  · exact h

theorem BContent_get {b b1 : bucket} {content : Nat → UInt8} {sz shift : Nat}
    {p : page} {ok : Bool} (h : BContent b content sz shift) (hg : b.get = (b1, p, ok)) :
    BContent b1 content sz shift := by
  rcases get_spec b with ⟨q, hl, heq⟩ | ⟨hfe, e, hq, heq⟩ | ⟨hfe, hqe, heq⟩ <;>
    rw [heq] at hg <;> simp only [Prod.mk.injEq] at hg <;> rw [← hg.1]
  · exact h
  · exact fun e1 he1 => h _ ((List.dropLast_sublist b.cache.queue).subset he1)
  · exact h

theorem BContent_write {b : bucket} {content : Nat → UInt8} {sz shift : Nat} {p : page}
    {rn : Nat} (h : BContent b content sz shift)
    (hnot : ∀ e ∈ b.cache.queue, e.2.offset ≠ p.offset)
    (hrn : rn ≤ 1 <<< shift) (g : Nat → UInt8) :
    BContent { b with pages := writeBytes b.pages (p.offset <<< shift) rn g }
      content sz shift := by
  intro e he
  refine ⟨(h e he).1, fun j hj => ?_⟩
  have hne := hnot e he
  have hps : (1 : Nat) <<< shift = 2 ^ shift := by rw [Nat.shiftLeft_eq, one_mul]
  have hj2 : j < 2 ^ shift := by
    rw [hps] at hj
    omega
  show writeBytes b.pages (p.offset <<< shift) rn g (e.2.offset <<< shift + j) =
    content (e.1.offset <<< shift + j)
  rw [writeBytes_out g, (h e he).2 j hj]
  rw [Nat.shiftLeft_eq, Nat.shiftLeft_eq, hps] at *
  rcases Nat.lt_or_ge e.2.offset p.offset with hlt | hge
  · left
    calc e.2.offset * 2 ^ shift + j < (e.2.offset + 1) * 2 ^ shift := by
          rw [Nat.add_mul, one_mul]
          omega
    _ ≤ p.offset * 2 ^ shift := Nat.mul_le_mul_right _ hlt
  · have hgt : p.offset < e.2.offset := by omega
    right
    calc p.offset * 2 ^ shift + rn ≤ (p.offset + 1) * 2 ^ shift := by
          rw [Nat.add_mul, one_mul]
          omega
    _ ≤ e.2.offset * 2 ^ shift := Nat.mul_le_mul_right _ hgt
    _ ≤ e.2.offset * 2 ^ shift + j := Nat.le_add_right _ _

theorem BContent_put {b : bucket} {content : Nat → UInt8} {sz shift : Nat}
    {key : region} {p : page} (h : BContent b content sz shift)
    (hpage : key.offset <<< shift < sz)
    (hbytes : ∀ j, j < min (1 <<< shift) (sz - key.offset <<< shift) →
      b.pages (p.offset <<< shift + j) = content (key.offset <<< shift + j)) :
    BContent (b.put key p) content sz shift := by
  rcases put_spec b key p with ⟨old, hfind, heq⟩ | ⟨hfind, heq⟩ <;> rw [heq] <;> intro e he <;>
    rcases List.mem_cons.mp he with rfl | he1
  · exact ⟨hpage, hbytes⟩
  · exact h _ ((lruRemove_sublist key b.cache.queue).subset he1)
  · exact ⟨hpage, hbytes⟩
  · exact h _ he1

theorem key_offset_eq {off shift sz : Nat} (hoff : off < sz) (hwrap : sz ≤ u32 * (1 <<< shift)) :
    (off >>> shift) % u32 = off / 2 ^ shift := by
  rw [Nat.shiftRight_eq_div_pow]
  apply Nat.mod_eq_of_lt
  rw [Nat.shiftLeft_eq, one_mul] at hwrap
  rw [Nat.div_lt_iff_lt_mul (Nat.two_pow_pos shift)]
  omega

theorem range_map_append (f g : Nat → UInt8) (n m : Nat)
    (hg : ∀ j, j < m → g j = f (n + j)) :
    (List.range n).map f ++ (List.range m).map g = (List.range (n + m)).map f := by
  rw [List.range_add n m, List.map_append, List.map_map]
  congr 1
  apply List.map_congr_left
  intro j hj
  exact hg j (List.mem_range.mp hj)

theorem readLoop_honest {content : Nat → UInt8} {sz id numPages shift : Nat}
    (hnp : 1 ≤ numPages) (hwrap : sz ≤ u32 * (1 <<< shift)) (blen off0 : Nat)
    (hsz : off0 + blen ≤ sz) :
    ∀ (fuel : Nat) (c : Cache) (n : Nat) (out : List UInt8) (calls : List (Nat × Nat)),
      CInv c numPages content sz shift →
      out = (List.range n).map (fun t => content (off0 + t)) →
      n < blen → blen ≤ n + fuel →
      ∃ c2 extra,
        readLoop (honestSrc content sz) id sz shift fuel c blen out n (off0 + n) calls =
          ⟨c2, (List.range blen).map (fun t => content (off0 + t)), blen, none,
            calls ++ extra⟩ ∧
        CInv c2 numPages content sz shift ∧ c2.shift = c.shift ∧ c2.hash = c.hash ∧
        ∀ cl ∈ extra, cl.1 = 2 ^ shift ∧ cl.2 % 2 ^ shift = 0 ∧
          cl.2 < off0 + blen ∧ off0 < cl.2 + 2 ^ shift := by
  intro fuel
  induction fuel with
  | zero =>
    intro c n out calls _ _ hlt hfuel
    omega
  | succ fuel ih =>
    intro c n out calls hinv hout hlt hfuel
    have hps1 : (1 : Nat) <<< shift = 2 ^ shift := by rw [Nat.shiftLeft_eq, one_mul]
    have hpspos : 0 < 2 ^ shift := Nat.two_pow_pos shift
    have hosz : off0 + n < sz := by omega
    have hidx : ((off0 + n) >>> shift) % u32 = (off0 + n) / 2 ^ shift :=
      key_offset_eq hosz hwrap
    have hmod := Nat.mod_add_div' (off0 + n) (2 ^ shift)
    have hmlt : (off0 + n) % 2 ^ shift < 2 ^ shift := Nat.mod_lt _ hpspos
    have hpo : ((off0 + n) / 2 ^ shift) <<< shift = (off0 + n) - (off0 + n) % 2 ^ shift := by
      rw [Nat.shiftLeft_eq]
      omega
    have hro : (off0 + n) - ((off0 + n) - (off0 + n) % 2 ^ shift) = (off0 + n) % 2 ^ shift := by
      omega
    rcases read_spec (c.buckets (c.hash ⟨id, (off0 + n) / 2 ^ shift⟩)) (blen - n)
        ⟨id, (off0 + n) / 2 ^ shift⟩ shift ((off0 + n) % 2 ^ shift) with
      ⟨p, hfind, heq⟩ | ⟨hfind, heq⟩
    · -- cache hit
      have hmem := lruFind_mem hfind
      have hBC := (hinv (c.hash ⟨id, (off0 + n) / 2 ^ shift⟩)).2 _ hmem
      simp only [readLoop, hidx, hpo, hro, heq, hps1]
      rw [if_neg (by omega)]
      have hbytes : ∀ j, j < min (blen - n) (2 ^ shift - (off0 + n) % 2 ^ shift) →
          (c.buckets (c.hash ⟨id, (off0 + n) / 2 ^ shift⟩)).bytes p shift
            ((off0 + n) % 2 ^ shift + j) = content (off0 + (n + j)) := by
        intro j hj
        have hj1 : (off0 + n) % 2 ^ shift + j <
            min (1 <<< shift)
              (sz - (⟨id, (off0 + n) / 2 ^ shift⟩ : region).offset <<< shift) := by
          show (off0 + n) % 2 ^ shift + j <
            min (1 <<< shift) (sz - ((off0 + n) / 2 ^ shift) <<< shift)
          rw [hps1, hpo]
          omega
        have hval := hBC.2 _ hj1
        simp only [bucket.bytes] at hval ⊢
        rw [hval]
        congr 1
        show ((off0 + n) / 2 ^ shift) <<< shift + ((off0 + n) % 2 ^ shift + j) = off0 + (n + j)
        rw [hpo]
        omega
      have hinv1 : CInv { c with
            buckets := Function.update c.buckets (c.hash ⟨id, (off0 + n) / 2 ^ shift⟩)
              ((c.buckets (c.hash ⟨id, (off0 + n) / 2 ^ shift⟩)).read (blen - n)
                ⟨id, (off0 + n) / 2 ^ shift⟩ shift ((off0 + n) % 2 ^ shift)).1 }
          numPages content sz shift := by
        intro i1
        by_cases hii : i1 = c.hash ⟨id, (off0 + n) / 2 ^ shift⟩
        · subst hii
          simp only [Function.update_same]
          exact ⟨BPart_read (hinv _).1, BContent_read (hinv _).2⟩
        · simp only [Function.update_noteq hii]
          exact hinv i1
      rw [heq] at hinv1
      by_cases hdone : blen ≤ n + (2 ^ shift - (off0 + n) % 2 ^ shift)
      · rw [if_pos hdone]
        have hmin : min (blen - n) (2 ^ shift - (off0 + n) % 2 ^ shift) = blen - n := by
          omega
        have heqout : out ++ (List.range (min (blen - n)
              (2 ^ shift - (off0 + n) % 2 ^ shift))).map
              (fun j => (c.buckets (c.hash ⟨id, (off0 + n) / 2 ^ shift⟩)).bytes p shift
                ((off0 + n) % 2 ^ shift + j)) =
            (List.range blen).map (fun t => content (off0 + t)) := by
          rw [hout, hmin]
          exact (range_map_append _ _ n (blen - n) (fun j hj => hbytes j (by omega))).trans
            (by rw [Nat.add_sub_cancel' (Nat.le_of_lt hlt)])
        exact ⟨_, [], by rw [List.append_nil, ← heqout], hinv1, rfl, rfl,
          by intro cl hcl; exact absurd hcl (List.not_mem_nil cl)⟩
      · rw [if_neg hdone, if_neg (by omega)]
        have hmin : min (blen - n) (2 ^ shift - (off0 + n) % 2 ^ shift) =
            2 ^ shift - (off0 + n) % 2 ^ shift := by omega
        have hout1 : out ++ (List.range (min (blen - n)
              (2 ^ shift - (off0 + n) % 2 ^ shift))).map
              (fun j => (c.buckets (c.hash ⟨id, (off0 + n) / 2 ^ shift⟩)).bytes p shift
                ((off0 + n) % 2 ^ shift + j)) =
            (List.range (n + (2 ^ shift - (off0 + n) % 2 ^ shift))).map
              (fun t => content (off0 + t)) := by
          rw [hout, hmin]
          exact range_map_append _ _ n _ (fun j hj => hbytes j (by omega))
        obtain ⟨c2, extra, hrec, hinv2, hsh, hha, hcalls⟩ :=
          ih _ (n + (2 ^ shift - (off0 + n) % 2 ^ shift)) _ calls hinv1 hout1
            (by omega) (by omega)
        rw [(by omega : off0 + n + (2 ^ shift - (off0 + n) % 2 ^ shift) =
          off0 + (n + (2 ^ shift - (off0 + n) % 2 ^ shift)))]
        exact ⟨c2, extra, hrec, hinv2, hsh, hha, hcalls⟩
    · -- cache miss
      obtain ⟨b1, hb1⟩ : ∃ b1, ((c.buckets (c.hash ⟨id, (off0 + n) / 2 ^ shift⟩)).read
          (blen - n) ⟨id, (off0 + n) / 2 ^ shift⟩ shift ((off0 + n) % 2 ^ shift)) =
          (b1, none) := ⟨_, heq⟩
      have hBP1 : BPart b1 [] numPages := by
        have := @BPart_read _ _ _ (blen - n) shift ((off0 + n) % 2 ^ shift)
          ⟨id, (off0 + n) / 2 ^ shift⟩ (hinv (c.hash ⟨id, (off0 + n) / 2 ^ shift⟩)).1
        rw [hb1] at this
        exact this
      have hBC1 : BContent b1 content sz shift := by
        have := @BContent_read _ _ _ _ (blen - n) ((off0 + n) % 2 ^ shift)
          ⟨id, (off0 + n) / 2 ^ shift⟩ (hinv (c.hash ⟨id, (off0 + n) / 2 ^ shift⟩)).2
        rw [hb1] at this
        exact this
      have hok := BPart_get_ok hBP1 hnp
      obtain ⟨b2, p, hget⟩ : ∃ b2 p, b1.get = (b2, p, true) :=
        ⟨(b1.get).1, (b1.get).2.1, by rw [← hok]⟩
      have hBP2 : BPart b2 [p] numPages := by
        have := BPart_get hBP1 hget
        simpa using this
      have hBC2 : BContent b2 content sz shift := BContent_get hBC1 hget
      have hpOlt : (off0 + n) - (off0 + n) % 2 ^ shift < sz := by omega
      simp only [readLoop, hidx, hpo, hro, hb1, hget, hps1, honestSrc]
      rw [if_neg (by decide : ¬(true = false))]
      rw [if_neg (show ¬(min (2 ^ shift) (sz - ((off0 + n) - (off0 + n) % 2 ^ shift)) <
            2 ^ shift ∧
          (if sz - ((off0 + n) - (off0 + n) % 2 ^ shift) < 2 ^ shift then some Err.eof
            else none) ≠ some Err.eof) by
        rintro ⟨h1, h2⟩
        rw [if_pos (by omega)] at h2
        exact h2 rfl)]
      rw [if_neg (show ¬((off0 + n) % 2 ^ shift >
          min (2 ^ shift) (sz - ((off0 + n) - (off0 + n) % 2 ^ shift))) by omega)]
      have hnotslot : ∀ e ∈ b2.cache.queue, e.2.offset ≠ p.offset := by
        intro e he hoff
        exact BPart_not_mem_slots hBP2
          (page_eq_of_offset hoff ▸ List.mem_map_of_mem Prod.snd he)
      have hrnle : min (2 ^ shift) (sz - ((off0 + n) - (off0 + n) % 2 ^ shift)) ≤
          1 <<< shift := by
        rw [hps1]
        omega
      have hBC3 : BContent (writePage b2 p shift
            (min (2 ^ shift) (sz - ((off0 + n) - (off0 + n) % 2 ^ shift)))
            (fun j => content ((off0 + n) - (off0 + n) % 2 ^ shift + j)))
          content sz shift :=
        BContent_write hBC2 hnotslot hrnle _
      have hBP3 : BPart (writePage b2 p shift
            (min (2 ^ shift) (sz - ((off0 + n) - (off0 + n) % 2 ^ shift)))
            (fun j => content ((off0 + n) - (off0 + n) % 2 ^ shift + j))) [p] numPages :=
        hBP2
      have hpage : (⟨id, (off0 + n) / 2 ^ shift⟩ : region).offset <<< shift < sz := by
        show ((off0 + n) / 2 ^ shift) <<< shift < sz
        rw [hpo]
        omega
      have hputbytes : ∀ j, j < min (1 <<< shift)
            (sz - (⟨id, (off0 + n) / 2 ^ shift⟩ : region).offset <<< shift) →
          (writePage b2 p shift
            (min (2 ^ shift) (sz - ((off0 + n) - (off0 + n) % 2 ^ shift)))
            (fun j => content ((off0 + n) - (off0 + n) % 2 ^ shift + j))).pages
            (p.offset <<< shift + j) =
          content ((⟨id, (off0 + n) / 2 ^ shift⟩ : region).offset <<< shift + j) := by
        intro j hj
        have hj2 : j < min (1 <<< shift) (sz - ((off0 + n) / 2 ^ shift) <<< shift) := hj
        rw [hps1, hpo] at hj2
        show writeBytes b2.pages (p.offset <<< shift)
            (min (2 ^ shift) (sz - ((off0 + n) - (off0 + n) % 2 ^ shift)))
            (fun j => content ((off0 + n) - (off0 + n) % 2 ^ shift + j))
            (p.offset <<< shift + j) =
          content ((⟨id, (off0 + n) / 2 ^ shift⟩ : region).offset <<< shift + j)
        rw [writeBytes_in _ (Nat.le_add_right _ _) (by omega)]
        rw [Nat.add_sub_cancel_left]
        congr 1
        show (off0 + n) - (off0 + n) % 2 ^ shift + j = ((off0 + n) / 2 ^ shift) <<< shift + j
        rw [hpo]
      have hBC4 := BContent_put hBC3 hpage hputbytes
      have hBP4 := @BPart_put _ _ _ ⟨id, (off0 + n) / 2 ^ shift⟩ _ hBP3
      have hinv3 : CInv { c with
            buckets := Function.update c.buckets (c.hash ⟨id, (off0 + n) / 2 ^ shift⟩)
              ((writePage b2 p shift
                (min (2 ^ shift) (sz - ((off0 + n) - (off0 + n) % 2 ^ shift)))
                (fun j => content ((off0 + n) - (off0 + n) % 2 ^ shift + j))).put
                ⟨id, (off0 + n) / 2 ^ shift⟩ p) }
          numPages content sz shift := by
        intro i1
        by_cases hii : i1 = c.hash ⟨id, (off0 + n) / 2 ^ shift⟩
        · subst hii
          simp only [Function.update_same]
          exact ⟨hBP4, hBC4⟩
        · simp only [Function.update_noteq hii]
          exact hinv i1
      have hminm : min (blen - n)
          (min (2 ^ shift) (sz - ((off0 + n) - (off0 + n) % 2 ^ shift)) -
            (off0 + n) % 2 ^ shift) =
          min (blen - n) (2 ^ shift - (off0 + n) % 2 ^ shift) := by
        omega
      rw [hminm]
      have hbytesm : ∀ j, j < min (blen - n) (2 ^ shift - (off0 + n) % 2 ^ shift) →
          (writePage b2 p shift
            (min (2 ^ shift) (sz - ((off0 + n) - (off0 + n) % 2 ^ shift)))
            (fun j => content ((off0 + n) - (off0 + n) % 2 ^ shift + j))).pages
            (p.offset <<< shift + ((off0 + n) % 2 ^ shift + j)) =
          content (off0 + (n + j)) := by
        intro j hj
        show writeBytes b2.pages (p.offset <<< shift)
            (min (2 ^ shift) (sz - ((off0 + n) - (off0 + n) % 2 ^ shift)))
            (fun j => content ((off0 + n) - (off0 + n) % 2 ^ shift + j))
            (p.offset <<< shift + ((off0 + n) % 2 ^ shift + j)) =
          content (off0 + (n + j))
        rw [writeBytes_in _ (Nat.le_add_right _ _) (by omega)]
        rw [Nat.add_sub_cancel_left]
        congr 1
        omega
      have hmod0 : ((off0 + n) - (off0 + n) % 2 ^ shift) % 2 ^ shift = 0 := by
        have h1 : (off0 + n) - (off0 + n) % 2 ^ shift =
            (off0 + n) / 2 ^ shift * 2 ^ shift := by omega
        rw [h1]
        exact Nat.mul_mod_left _ _
      by_cases hdone : blen ≤ n + (2 ^ shift - (off0 + n) % 2 ^ shift)
      · rw [if_pos hdone]
        have hmin : min (blen - n) (2 ^ shift - (off0 + n) % 2 ^ shift) = blen - n := by
          omega
        have heqout : out ++ (List.range (min (blen - n)
              (2 ^ shift - (off0 + n) % 2 ^ shift))).map
              (fun j => (writePage b2 p shift
                (min (2 ^ shift) (sz - ((off0 + n) - (off0 + n) % 2 ^ shift)))
                (fun j => content ((off0 + n) - (off0 + n) % 2 ^ shift + j))).pages
                (p.offset <<< shift + ((off0 + n) % 2 ^ shift + j))) =
            (List.range blen).map (fun t => content (off0 + t)) := by
          rw [hout, hmin]
          exact (range_map_append _ _ n (blen - n) (fun j hj => hbytesm j (by omega))).trans
            (by rw [Nat.add_sub_cancel' (Nat.le_of_lt hlt)])
        exact ⟨_, [(2 ^ shift, (off0 + n) - (off0 + n) % 2 ^ shift)],
          by rw [← heqout]; exact rfl,
          hinv3, rfl, rfl, by
            intro cl hcl
            rw [List.mem_singleton.mp hcl]
            exact ⟨rfl, hmod0, by omega, by omega⟩⟩
      · rw [if_neg hdone, if_neg (by omega)]
        have hmin : min (blen - n) (2 ^ shift - (off0 + n) % 2 ^ shift) =
            2 ^ shift - (off0 + n) % 2 ^ shift := by omega
        have hout1 : out ++ (List.range (min (blen - n)
              (2 ^ shift - (off0 + n) % 2 ^ shift))).map
              (fun j => (writePage b2 p shift
                (min (2 ^ shift) (sz - ((off0 + n) - (off0 + n) % 2 ^ shift)))
                (fun j => content ((off0 + n) - (off0 + n) % 2 ^ shift + j))).pages
                (p.offset <<< shift + ((off0 + n) % 2 ^ shift + j))) =
            (List.range (n + (2 ^ shift - (off0 + n) % 2 ^ shift))).map
              (fun t => content (off0 + t)) := by
          rw [hout, hmin]
          exact range_map_append _ _ n _ (fun j hj => hbytesm j (by omega))
        obtain ⟨c2, extra, hrec, hinv2, hsh, hha, hcalls⟩ :=
          ih _ (n + (2 ^ shift - (off0 + n) % 2 ^ shift)) _
            (calls ++ [(2 ^ shift, (off0 + n) - (off0 + n) % 2 ^ shift)]) hinv3 hout1
            (by omega) (by omega)
        rw [(by omega : off0 + n + (2 ^ shift - (off0 + n) % 2 ^ shift) =
          off0 + (n + (2 ^ shift - (off0 + n) % 2 ^ shift)))]
        rw [List.append_assoc, List.singleton_append] at hrec
        refine ⟨c2, (2 ^ shift, (off0 + n) - (off0 + n) % 2 ^ shift) :: extra, hrec,
          hinv2, hsh, hha, ?_⟩
        intro cl hcl
        rcases List.mem_cons.mp hcl with rfl | hcl1
        · exact ⟨rfl, hmod0, by omega, by omega⟩
        · exact hcalls cl hcl1

/-! ## Construction facts -/

theorem cfgPageSize_pos (cfg : Config) : 1 ≤ cfgPageSize cfg := by
  unfold cfgPageSize
  split
  · decide
  · next h => omega

theorem cfgPageCount_pos (cfg : Config) : 1 ≤ cfgPageCount cfg := by
  unfold cfgPageCount
  split
  · decide
  · next h => omega

theorem wrap64_eq {n : Int} (hlo : -(2 ^ 63) ≤ n) (hhi : n < 2 ^ 63) :
    wrap64 n = n := by
  unfold wrap64
  omega

theorem size_succ_div_two {n : Nat} (h : n ≠ 0) :
    Nat.size n = Nat.size (n / 2) + 1 := by
  conv_lhs => rw [← Nat.bit_decomp n]
  rw [Nat.size_bit (by rw [Nat.bit_decomp]; exact h), Nat.div2_val]

theorem bitLenAux_eq_size : ∀ fuel n, n ≤ fuel → bitLenAux fuel n = Nat.size n := by
  intro fuel
  induction fuel with
  | zero =>
    intro n h
    have h0 : n = 0 := by omega
    subst h0
    simp [bitLenAux]
  | succ fuel ih =>
    intro n h
    by_cases h0 : n = 0
    · subst h0
      simp [bitLenAux]
    · simp only [bitLenAux]
      rw [if_neg h0, ih (n / 2) (by omega), size_succ_div_two h0]

theorem bitLen_eq_size (n : Nat) : bitLen n = Nat.size n :=
  bitLenAux_eq_size n n le_rfl

theorem effShift_le (cfg : Config) (h1 : cfgPageSize cfg ≤ 2 ^ 62) :
    effShift cfg ≤ 62 := by
  unfold effShift
  rw [bitLen_eq_size, Nat.size_le]
  have := cfgPageSize_pos cfg
  omega

theorem effPageSize_eq (cfg : Config) (h1 : cfgPageSize cfg ≤ 2 ^ 62) :
    effPageSize cfg = 2 ^ effShift cfg := by
  unfold effPageSize
  apply wrap64_eq
  · have := pow_nonneg (by omega : (0 : Int) ≤ 2) (effShift cfg)
    omega
  · calc (2 : Int) ^ effShift cfg ≤ 2 ^ 62 :=
      pow_le_pow_right (by omega) (effShift_le cfg h1)
    _ < 2 ^ 63 := by norm_num

theorem effPageSize_posI (cfg : Config) (h1 : cfgPageSize cfg ≤ 2 ^ 62) :
    0 < effPageSize cfg := by
  rw [effPageSize_eq cfg h1]
  positivity

theorem effPageSize_cast (cfg : Config) (h1 : cfgPageSize cfg ≤ 2 ^ 62) :
    effPageSize cfg = ((2 ^ effShift cfg : Nat) : Int) := by
  rw [effPageSize_eq cfg h1]
  push_cast
  rfl

theorem effPageSize_toNat (cfg : Config) (h1 : cfgPageSize cfg ≤ 2 ^ 62) :
    (effPageSize cfg).toNat = 1 <<< effShift cfg := by
  rw [effPageSize_cast cfg h1, Int.toNat_natCast, Nat.shiftLeft_eq, one_mul]

theorem effPageCount_eq (cfg : Config) (h2 : cfgPageCount cfg ≤ 2 ^ 38) :
    effPageCount cfg =
      (if cfgPageCount cfg % 64 ≠ 0 then (cfgPageCount cfg / 64 + 1) * 64
       else cfgPageCount cfg) ∧
    64 ≤ effPageCount cfg ∧ effPageCount cfg ≤ 2 ^ 38 ∧
    effPageCount cfg % 64 = 0 ∧ cfgPageCount cfg ≤ effPageCount cfg := by
  have hpos := cfgPageCount_pos cfg
  unfold effPageCount
  rw [Int.tdiv_eq_ediv (by omega) (by omega), Int.tmod_eq_emod (by omega) (by omega)]
  by_cases h : cfgPageCount cfg % 64 ≠ 0
  · rw [if_pos h, if_pos h]
    have hb : (cfgPageCount cfg / 64 + 1) * 64 ≤ 2 ^ 38 := by omega
    have hge : (64 : Int) ≤ (cfgPageCount cfg / 64 + 1) * 64 := by omega
    rw [wrap64_eq (by omega) (by omega)]
    exact ⟨rfl, by omega, by omega, by omega, by omega⟩
  · rw [if_neg h, if_neg h]
    simp only [Decidable.not_not] at h
    exact ⟨rfl, by omega, h2, h, le_refl _⟩

theorem cacheSize_eq (cfg : Config) (h1 : cfgPageSize cfg ≤ 2 ^ 62)
    (h2 : cfgPageCount cfg ≤ 2 ^ 38)
    (h3 : effPageSize cfg * effPageCount cfg < 2 ^ 63) :
    cacheSizeOf cfg = effPageSize cfg * effPageCount cfg := by
  unfold cacheSizeOf
  have hps := effPageSize_posI cfg h1
  obtain ⟨-, hge, -, -, -⟩ := effPageCount_eq cfg h2
  have hnn : 0 ≤ effPageSize cfg * effPageCount cfg :=
    mul_nonneg (le_of_lt hps) (by omega)
  exact wrap64_eq (by omega) h3

theorem bucketSize_eq (cfg : Config) (h1 : cfgPageSize cfg ≤ 2 ^ 62)
    (h2 : cfgPageCount cfg ≤ 2 ^ 38)
    (h3 : effPageSize cfg * effPageCount cfg < 2 ^ 63) :
    bucketSizeOf cfg = effPageSize cfg * (effPageCount cfg / 64) := by
  obtain ⟨-, hge, hle, hmod, -⟩ := effPageCount_eq cfg h2
  have hps := effPageSize_posI cfg h1
  have hq : effPageCount cfg = 64 * (effPageCount cfg / 64) := by omega
  have hnn : 0 ≤ cacheSizeOf cfg := by
    rw [cacheSize_eq cfg h1 h2 h3]
    exact mul_nonneg (le_of_lt hps) (by omega)
  unfold bucketSizeOf
  rw [Int.tdiv_eq_ediv hnn (by omega), cacheSize_eq cfg h1 h2 h3]
  conv_lhs => rw [hq]
  have hcomm : effPageSize cfg * (64 * (effPageCount cfg / 64)) =
      64 * (effPageSize cfg * (effPageCount cfg / 64)) := by ring
  rw [hcomm, Int.mul_ediv_cancel_left _ (by norm_num)]

theorem numPagesOf_eq (cfg : Config) (h1 : cfgPageSize cfg ≤ 2 ^ 62)
    (h2 : cfgPageCount cfg ≤ 2 ^ 38)
    (h3 : effPageSize cfg * effPageCount cfg < 2 ^ 63) :
    (bucketSizeOf cfg).toNat / (effPageSize cfg).toNat =
      (effPageCount cfg / 64).toNat ∧
    1 ≤ (effPageCount cfg / 64).toNat ∧ (effPageCount cfg / 64).toNat ≤ u32 := by
  obtain ⟨-, hge, hle, hmod, -⟩ := effPageCount_eq cfg h2
  have hps := effPageSize_posI cfg h1
  have hqnn : (0 : Int) ≤ effPageCount cfg / 64 := by omega
  refine ⟨?_, by omega, ?_⟩
  · rw [bucketSize_eq cfg h1 h2 h3]
    have hA : ((effPageSize cfg).toNat : Int) = effPageSize cfg :=
      Int.toNat_of_nonneg (le_of_lt hps)
    have hB : ((effPageCount cfg / 64).toNat : Int) = effPageCount cfg / 64 :=
      Int.toNat_of_nonneg hqnn
    have hprod : effPageSize cfg * (effPageCount cfg / 64) =
        (((effPageSize cfg).toNat * (effPageCount cfg / 64).toNat : Nat) : Int) := by
      push_cast
      rw [hA, hB]
    rw [hprod, Int.toNat_natCast, Nat.mul_div_cancel_left]
    omega
  · show (effPageCount cfg / 64).toNat ≤ 4294967296
    omega

theorem NewWithConfig_eq (cfg : Config) (seed : region → Fin numBuckets)
    (h1 : cfgPageSize cfg ≤ 2 ^ 62) (h2 : cfgPageCount cfg ≤ 2 ^ 38)
    (h3 : effPageSize cfg * effPageCount cfg < 2 ^ 63) :
    NewWithConfig cfg seed = some
      { hash := seed
        shift := effShift cfg
        buckets := fun _ => bucket.init (fun _ => 0) (bucketSizeOf cfg).toNat
          (effPageSize cfg).toNat } := by
  have hnn : 0 ≤ cacheSizeOf cfg := by
    rw [cacheSize_eq cfg h1 h2 h3]
    obtain ⟨-, hge, -, -, -⟩ := effPageCount_eq cfg h2
    exact mul_nonneg (le_of_lt (effPageSize_posI cfg h1)) (by omega)
  unfold NewWithConfig
  rw [if_neg (by omega)]

theorem NewWithConfig_CInv (cfg : Config) (seed : region → Fin numBuckets)
    (content : Nat → UInt8) (sz : Nat)
    (h1 : cfgPageSize cfg ≤ 2 ^ 62) (h2 : cfgPageCount cfg ≤ 2 ^ 38)
    (h3 : effPageSize cfg * effPageCount cfg < 2 ^ 63) {c0 : Cache}
    (hc : NewWithConfig cfg seed = some c0) :
    CInv c0 (effPageCount cfg / 64).toNat content sz (effShift cfg) ∧
    c0.shift = effShift cfg ∧ c0.hash = seed := by
  rw [NewWithConfig_eq cfg seed h1 h2 h3] at hc
  simp only [Option.some.injEq] at hc
  subst hc
  obtain ⟨hdiv, hnp1, hnpu⟩ := numPagesOf_eq cfg h1 h2 h3
  refine ⟨?_, rfl, rfl⟩
  intro i
  constructor
  · show BPart (bucket.init (fun _ => 0) (bucketSizeOf cfg).toNat
      (effPageSize cfg).toNat) [] _
    have h0 := BPart_init (fun _ => 0) (bucketSizeOf cfg).toNat
      (effPageSize cfg).toNat (by rw [hdiv]; exact hnpu)
    rw [hdiv] at h0
    exact h0
  · intro e he
    simp [bucket.init] at he

theorem NewWithConfig_shift (cfg : Config) (seed : region → Fin numBuckets)
    {c0 : Cache} (hc : NewWithConfig cfg seed = some c0) :
    c0.shift = effShift cfg := by
  unfold NewWithConfig at hc
  by_cases h : cacheSizeOf cfg < 0
  · rw [if_pos h] at hc
    exact absurd hc (by simp)
  · rw [if_neg h] at hc
    simp only [Option.some.injEq] at hc
    subst hc
    rfl

/-! ## ReadAt under an honest source -/

theorem ReadAt_honest {content : Nat → UInt8} {sz id numPages : Nat} {c : Cache}
    {shift : Nat}
    (hnp : 1 ≤ numPages) (hwrap : sz ≤ u32 * (1 <<< shift)) (hsh : c.shift = shift)
    (hinv : CInv c numPages content sz shift) (blen : Nat) (off : Int)
    (h0 : 0 ≤ off) (hlt : off < (sz : Int)) (hblen : 0 < blen) :
    ∃ c2 calls,
      ReadAt c (honestSrc content sz) id sz blen off =
        ⟨c2, (List.range (min blen (sz - off.toNat))).map
          (fun t => content (off.toNat + t)), min blen (sz - off.toNat), none, calls⟩ ∧
      CInv c2 numPages content sz shift ∧ c2.shift = shift ∧ c2.hash = c.hash ∧
      ∀ cl ∈ calls, cl.1 = 2 ^ shift ∧ cl.2 % 2 ^ shift = 0 ∧
        cl.2 < off.toNat + min blen (sz - off.toNat) ∧ off.toNat < cl.2 + 2 ^ shift := by
  have hoff : off.toNat < sz := by omega
  have hbl : 0 < min blen (sz - off.toNat) := by omega
  rw [ReadAt, if_neg (by omega), if_neg (by omega)]
  simp only []
  rw [if_neg (by omega)]
  obtain ⟨c2, extra, hrec, hinv2, hs2, hh2, hcalls⟩ :=
    @readLoop_honest content sz id numPages shift hnp hwrap
      (min blen (sz - off.toNat)) off.toNat (by omega)
      (min blen (sz - off.toNat) + 1) c 0 [] [] hinv (by simp) hbl (by omega)
  rw [hsh]
  refine ⟨c2, [] ++ extra, hrec, hinv2, hs2.trans hsh, hh2, ?_⟩
  intro cl hcl
  rw [List.nil_append] at hcl
  exact hcalls cl hcl

theorem ReadAt_honest_cache {content : Nat → UInt8} {sz id numPages : Nat} {c : Cache}
    {shift : Nat}
    (hnp : 1 ≤ numPages) (hwrap : sz ≤ u32 * (1 <<< shift)) (hsh : c.shift = shift)
    (hinv : CInv c numPages content sz shift) (blen : Nat) (off : Int) :
    CInv (ReadAt c (honestSrc content sz) id sz blen off).cache numPages content sz shift ∧
    (ReadAt c (honestSrc content sz) id sz blen off).cache.shift = shift ∧
    (ReadAt c (honestSrc content sz) id sz blen off).cache.hash = c.hash := by
  by_cases h0 : off < 0
  · rw [ReadAt, if_pos h0]
    exact ⟨hinv, hsh, rfl⟩
  by_cases h1 : (sz : Int) ≤ off
  · rw [ReadAt, if_neg h0, if_pos h1]
    exact ⟨hinv, hsh, rfl⟩
  by_cases h2 : blen = 0
  · rw [ReadAt, if_neg h0, if_neg h1]
    simp only []
    rw [if_pos (by omega)]
    exact ⟨hinv, hsh, rfl⟩
  obtain ⟨c2, calls, heq, hinv2, hs2, hh2, _⟩ :=
    ReadAt_honest hnp hwrap hsh hinv blen off (by omega) (by omega) (by omega)
  rw [heq]
  exact ⟨hinv2, hs2, hh2⟩

theorem runReads_honest {content : Nat → UInt8} {sz id numPages shift : Nat}
    (hnp : 1 ≤ numPages) (hwrap : sz ≤ u32 * (1 <<< shift)) :
    ∀ (prior : List (Int × Nat)) (c : Cache), c.shift = shift →
      CInv c numPages content sz shift →
      CInv (runReads (honestSrc content sz) id sz c prior) numPages content sz shift ∧
      (runReads (honestSrc content sz) id sz c prior).shift = shift
  | [], c, hsh, hinv => ⟨hinv, hsh⟩
  | (off, blen) :: rest, c, hsh, hinv => by
    rw [runReads]
    obtain ⟨hinv1, hs1, _⟩ := ReadAt_honest_cache hnp hwrap hsh hinv blen off
    exact runReads_honest hnp hwrap rest _ hs1 hinv1

/-! ## The returned count of an error-free read -/

theorem readLoop_none_n (src : FileSrc) (id sz shift : Nat) :
    ∀ (fuel : Nat) (c : Cache) (blen : Nat) (out : List UInt8) (n off : Nat)
      (calls : List (Nat × Nat)),
      (readLoop src id sz shift fuel c blen out n off calls).err = none →
      (readLoop src id sz shift fuel c blen out n off calls).n = blen := by
  intro fuel
  induction fuel with
  | zero =>
    intro c blen out n off calls h
    simp [readLoop] at h
  | succ fuel ih =>
    intro c blen out n off calls h
    rcases hr : (c.buckets (c.hash ⟨id, (off >>> shift) % u32⟩)).read (blen - n)
        ⟨id, (off >>> shift) % u32⟩ shift (off - ((off >>> shift) % u32) <<< shift) with
      ⟨b1, copied?⟩
    cases copied? with
    | some copied =>
      simp only [readLoop, hr] at h ⊢
      by_cases h1 : off - ((off >>> shift) % u32) <<< shift > 1 <<< shift
      · rw [if_pos h1] at h
        simp at h
      · rw [if_neg h1] at h ⊢
        by_cases h2 : blen ≤ n + (1 <<< shift - (off - ((off >>> shift) % u32) <<< shift))
        · rw [if_pos h2] at h ⊢
        · rw [if_neg h2] at h ⊢
          by_cases h3 : sz ≤ off + (1 <<< shift - (off - ((off >>> shift) % u32) <<< shift))
          · rw [if_pos h3] at h
            simp at h
          · rw [if_neg h3] at h ⊢
            exact ih _ _ _ _ _ _ h
    | none =>
      rcases hg : b1.get with ⟨b2, p, ok⟩
      simp only [readLoop, hr, hg] at h ⊢
      by_cases h0 : ok = false
      · rw [if_pos h0] at h
        simp at h
      · rw [if_neg h0] at h ⊢
        by_cases h1 : (src (1 <<< shift) (((off >>> shift) % u32) <<< shift)).rn <
            1 <<< shift ∧
            (src (1 <<< shift) (((off >>> shift) % u32) <<< shift)).err ≠ some Err.eof
        · rw [if_pos h1] at h
          simp at h
        · rw [if_neg h1] at h ⊢
          by_cases h2 : off - ((off >>> shift) % u32) <<< shift >
              (src (1 <<< shift) (((off >>> shift) % u32) <<< shift)).rn
          · rw [if_pos h2] at h
            simp at h
          · rw [if_neg h2] at h ⊢
            by_cases h3 : blen ≤ n +
                (1 <<< shift - (off - ((off >>> shift) % u32) <<< shift))
            · rw [if_pos h3] at h ⊢
            · rw [if_neg h3] at h ⊢
              by_cases h4 : sz ≤ off +
                  (1 <<< shift - (off - ((off >>> shift) % u32) <<< shift))
              · rw [if_pos h4] at h
                simp at h
              · rw [if_neg h4] at h ⊢
                exact ih _ _ _ _ _ _ h

theorem readLoop_failAfter {content : Nat → UInt8} {sz id numPages shift cut rn1 : Nat}
    {e : Option Err}
    (hnp : 1 ≤ numPages) (hwrap : sz ≤ u32 * (1 <<< shift))
    (he : e ≠ some Err.eof) (hrn1 : rn1 < 1 <<< shift) (hcut : cut % 2 ^ shift = 0)
    (blen : Nat) (hblen : blen ≤ sz) (hcutlt : cut < blen) :
    ∀ (fuel : Nat) (c : Cache) (n : Nat) (out : List UInt8) (calls : List (Nat × Nat)),
      CInv c numPages content sz shift →
      BelowCut c cut shift →
      out = (List.range n).map content →
      n ≤ cut → n % 2 ^ shift = 0 → cut < n + fuel →
      ∃ c2 calls2,
        readLoop (failSrc content sz cut rn1 e) id sz shift fuel c blen out n n calls =
          ⟨c2, (List.range cut).map content, cut, some (e.getD Err.errNoProgress),
            calls2⟩ := by
  intro fuel
  induction fuel with
  | zero =>
    intro c n out calls _ _ _ hle _ hfuel
    omega
  | succ fuel ih =>
    intro c n out calls hinv hbelow hout hle hal hfuel
    have hps1 : (1 : Nat) <<< shift = 2 ^ shift := by rw [Nat.shiftLeft_eq, one_mul]
    have hpspos : 0 < 2 ^ shift := Nat.two_pow_pos shift
    have hosz : n < sz := by omega
    have hidx : (n >>> shift) % u32 = n / 2 ^ shift := key_offset_eq hosz hwrap
    have hmod := Nat.mod_add_div' n (2 ^ shift)
    have hpo : (n / 2 ^ shift) <<< shift = n := by
      rw [Nat.shiftLeft_eq]
      omega
    have hro : n - n = 0 := by omega
    by_cases hceq : n = cut
    · -- the failing page: it cannot be cached, so the miss path aborts
      subst hceq
      have hfind : lruFind (⟨id, n / 2 ^ shift⟩ : region)
          (c.buckets (c.hash ⟨id, n / 2 ^ shift⟩)).cache.queue = none := by
        cases hf : lruFind (⟨id, n / 2 ^ shift⟩ : region)
            (c.buckets (c.hash ⟨id, n / 2 ^ shift⟩)).cache.queue with
        | none => rfl
        | some p =>
          exfalso
          have hm := lruFind_mem hf
          have := hbelow (c.hash ⟨id, n / 2 ^ shift⟩) _ hm
          rw [hpo] at this
          omega
      obtain ⟨b1, hb1⟩ : ∃ b1, ((c.buckets (c.hash ⟨id, n / 2 ^ shift⟩)).read
          (blen - n) ⟨id, n / 2 ^ shift⟩ shift 0) = (b1, none) := by
        rcases read_spec (c.buckets (c.hash ⟨id, n / 2 ^ shift⟩)) (blen - n)
            ⟨id, n / 2 ^ shift⟩ shift 0 with ⟨p, hf2, heq2⟩ | ⟨hf2, heq2⟩
        · rw [hf2] at hfind
          cases hfind
        · exact ⟨_, heq2⟩
      have hBP1 : BPart b1 [] numPages := by
        have := @BPart_read _ _ _ (blen - n) shift 0 ⟨id, n / 2 ^ shift⟩
          (hinv (c.hash ⟨id, n / 2 ^ shift⟩)).1
        rw [hb1] at this
        exact this
      have hok := BPart_get_ok hBP1 hnp
      obtain ⟨b2, p, hget⟩ : ∃ b2 p, b1.get = (b2, p, true) :=
        ⟨(b1.get).1, (b1.get).2.1, by rw [← hok]⟩
      have hfs : failSrc content sz n rn1 e (2 ^ shift) n =
          ⟨rn1, fun j => content (n + j), e⟩ := by
        rw [failSrc, if_pos rfl]
      simp only [readLoop, hidx, hpo, hro, hb1, hget, hps1, hfs]
      rw [if_neg (by decide : ¬(true = false))]
      rw [if_pos ⟨by rw [hps1] at hrn1; exact hrn1, he⟩]
      rw [hout]
      exact ⟨_, _, rfl⟩
    · -- a page before the cut: the source behaves honestly and the loop advances
      have hlt2 : n < cut := by omega
      have hstep : n + 2 ^ shift ≤ cut := by
        have hc1 := Nat.mod_add_div' cut (2 ^ shift)
        have h1 : n / 2 ^ shift < cut / 2 ^ shift := by
          by_contra hcon
          push_neg at hcon
          have h2 : cut / 2 ^ shift * 2 ^ shift ≤ n / 2 ^ shift * 2 ^ shift :=
            Nat.mul_le_mul_right _ hcon
          omega
        have h3 : (n / 2 ^ shift + 1) * 2 ^ shift ≤ cut / 2 ^ shift * 2 ^ shift :=
          Nat.mul_le_mul_right _ h1
        have h5 : (n / 2 ^ shift + 1) * 2 ^ shift =
            n / 2 ^ shift * 2 ^ shift + 2 ^ shift := by
          ring
        omega
      have hsrc : failSrc content sz cut rn1 e (2 ^ shift) n = honestSrc content sz (2 ^ shift) n := by
        rw [failSrc, if_neg hceq]
      have hrn : (honestSrc content sz (2 ^ shift) n).rn = 2 ^ shift := by
        simp only [honestSrc]
        omega
      have herr : (honestSrc content sz (2 ^ shift) n).err = none := by
        simp only [honestSrc]
        rw [if_neg (by omega)]
      rcases read_spec (c.buckets (c.hash ⟨id, n / 2 ^ shift⟩)) (blen - n)
          ⟨id, n / 2 ^ shift⟩ shift 0 with ⟨p, hfind, heq⟩ | ⟨hfind, heq⟩
      · -- hit below the cut
        have hmem := lruFind_mem hfind
        have hBC := (hinv (c.hash ⟨id, n / 2 ^ shift⟩)).2 _ hmem
        simp only [readLoop, hidx, hpo, hro, heq, hps1]
        rw [if_neg (by omega), if_neg (by omega), if_neg (by omega)]
        have hmin : min (blen - n) (2 ^ shift - 0) = 2 ^ shift := by omega
        have hbytes : ∀ j, j < 2 ^ shift →
            (c.buckets (c.hash ⟨id, n / 2 ^ shift⟩)).bytes p shift (0 + j) =
            content (n + j) := by
          intro j hj
          have hj1 : (0 : Nat) + j <
              min (1 <<< shift) (sz - (⟨id, n / 2 ^ shift⟩ : region).offset <<< shift) := by
            show (0 : Nat) + j < min (1 <<< shift) (sz - (n / 2 ^ shift) <<< shift)
            rw [hps1, hpo]
            omega
          have hval := hBC.2 _ hj1
          simp only [bucket.bytes] at hval ⊢
          rw [hval]
          congr 1
          show (n / 2 ^ shift) <<< shift + (0 + j) = n + j
          rw [hpo]
          omega
        have hout1 : out ++ (List.range (min (blen - n) (2 ^ shift - 0))).map
              (fun j => (c.buckets (c.hash ⟨id, n / 2 ^ shift⟩)).bytes p shift (0 + j)) =
            (List.range (n + 2 ^ shift)).map content := by
          rw [hout, hmin]
          have := range_map_append content
            (fun j => (c.buckets (c.hash ⟨id, n / 2 ^ shift⟩)).bytes p shift (0 + j))
            n (2 ^ shift) (fun j hj => hbytes j hj)
          simpa using this
        have hinv1 : CInv { c with
              buckets := Function.update c.buckets (c.hash ⟨id, n / 2 ^ shift⟩)
                ((c.buckets (c.hash ⟨id, n / 2 ^ shift⟩)).read (blen - n)
                  ⟨id, n / 2 ^ shift⟩ shift 0).1 }
            numPages content sz shift := by
          intro i1
          by_cases hii : i1 = c.hash ⟨id, n / 2 ^ shift⟩
          · subst hii
            simp only [Function.update_same]
            exact ⟨BPart_read (hinv _).1, BContent_read (hinv _).2⟩
          · simp only [Function.update_noteq hii]
            exact hinv i1
        have hbelow1 : BelowCut { c with
              buckets := Function.update c.buckets (c.hash ⟨id, n / 2 ^ shift⟩)
                ((c.buckets (c.hash ⟨id, n / 2 ^ shift⟩)).read (blen - n)
                  ⟨id, n / 2 ^ shift⟩ shift 0).1 }
            cut shift := by
          intro i1 e1 he1
          by_cases hii : i1 = c.hash ⟨id, n / 2 ^ shift⟩
          · subst hii
            simp only [Function.update_same, heq] at he1
            rcases List.mem_cons.mp he1 with rfl | he2
            · exact hbelow _ _ hmem
            · exact hbelow _ _ ((lruRemove_sublist _ _).subset he2)
          · simp only [Function.update_noteq hii] at he1
            exact hbelow i1 e1 he1
        rw [heq] at hinv1 hbelow1
        obtain ⟨c2, calls2, hrec⟩ := ih _ (n + 2 ^ shift) _ calls hinv1 hbelow1
          hout1 hstep (by rw [Nat.add_mod_right]; exact hal) (by omega)
        exact ⟨c2, calls2, hrec⟩
      · -- miss below the cut: honest fetch, install, continue
        obtain ⟨b1, hb1⟩ : ∃ b1, ((c.buckets (c.hash ⟨id, n / 2 ^ shift⟩)).read
            (blen - n) ⟨id, n / 2 ^ shift⟩ shift 0) = (b1, none) := ⟨_, heq⟩
        have hBP1 : BPart b1 [] numPages := by
          have := @BPart_read _ _ _ (blen - n) shift 0 ⟨id, n / 2 ^ shift⟩
            (hinv (c.hash ⟨id, n / 2 ^ shift⟩)).1
          rw [hb1] at this
          exact this
        have hBC1 : BContent b1 content sz shift := by
          have := @BContent_read _ _ _ _ (blen - n) 0 ⟨id, n / 2 ^ shift⟩
            (hinv (c.hash ⟨id, n / 2 ^ shift⟩)).2
          rw [hb1] at this
          exact this
        have hbelowb1 : ∀ e1 ∈ b1.cache.queue, e1.1.offset <<< shift < cut := by
          have hsub : ∀ e1 ∈ b1.cache.queue,
              e1 ∈ (c.buckets (c.hash ⟨id, n / 2 ^ shift⟩)).cache.queue := by
            rcases read_spec (c.buckets (c.hash ⟨id, n / 2 ^ shift⟩)) (blen - n)
                ⟨id, n / 2 ^ shift⟩ shift 0 with ⟨p, hf2, heq2⟩ | ⟨hf2, heq2⟩
            · rw [hf2] at hfind
              cases hfind
            · rw [heq2] at hb1
              cases hb1
              intro e1 he1
              exact he1
          intro e1 he1
          exact hbelow _ _ (hsub e1 he1)
        have hok := BPart_get_ok hBP1 hnp
        obtain ⟨b2, p, hget⟩ : ∃ b2 p, b1.get = (b2, p, true) :=
          ⟨(b1.get).1, (b1.get).2.1, by rw [← hok]⟩
        have hBP2 : BPart b2 [p] numPages := by
          have := BPart_get hBP1 hget
          simpa using this
        have hBC2 : BContent b2 content sz shift := BContent_get hBC1 hget
        have hbelowb2 : ∀ e1 ∈ b2.cache.queue, e1.1.offset <<< shift < cut := by
          rcases get_spec b1 with ⟨q, hl, heq2⟩ | ⟨hfe, e2, hq, heq2⟩ | ⟨hfe, hqe, heq2⟩ <;>
            rw [heq2] at hget <;> simp only [Prod.mk.injEq] at hget <;>
            rw [← hget.1] <;> intro e1 he1
          · exact hbelowb1 e1 he1
          · exact hbelowb1 e1 ((List.dropLast_sublist _).subset he1)
          · exact hbelowb1 e1 he1
        simp only [readLoop, hidx, hpo, hro, hb1, hget, hps1, hsrc, hrn, herr]
        rw [if_neg (by decide : ¬(true = false))]
        rw [if_neg (show ¬(2 ^ shift < 2 ^ shift ∧ (none : Option Err) ≠ some Err.eof) by
          rintro ⟨h1, _⟩
          omega)]
        rw [if_neg (by omega)]
        have hbytesv : (honestSrc content sz (2 ^ shift) n).bytes = fun j => content (n + j) :=
          rfl
        rw [hbytesv]
        have hnotslot : ∀ e1 ∈ b2.cache.queue, e1.2.offset ≠ p.offset := by
          intro e1 he1 hoff
          exact BPart_not_mem_slots hBP2
            (page_eq_of_offset hoff ▸ List.mem_map_of_mem Prod.snd he1)
        have hBC3 : BContent (writePage b2 p shift (2 ^ shift)
              (fun j => content (n + j))) content sz shift :=
          BContent_write hBC2 hnotslot (by omega) _
        have hBP3 : BPart (writePage b2 p shift (2 ^ shift)
              (fun j => content (n + j))) [p] numPages := hBP2
        have hpage : (⟨id, n / 2 ^ shift⟩ : region).offset <<< shift < sz := by
          show (n / 2 ^ shift) <<< shift < sz
          rw [hpo]
          omega
        have hputbytes : ∀ j, j < min (1 <<< shift)
              (sz - (⟨id, n / 2 ^ shift⟩ : region).offset <<< shift) →
            (writePage b2 p shift (2 ^ shift) (fun j => content (n + j))).pages
              (p.offset <<< shift + j) =
            content ((⟨id, n / 2 ^ shift⟩ : region).offset <<< shift + j) := by
          intro j hj
          have hj2 : j < min (1 <<< shift) (sz - (n / 2 ^ shift) <<< shift) := hj
          rw [hps1, hpo] at hj2
          show writeBytes b2.pages (p.offset <<< shift) (2 ^ shift)
              (fun j => content (n + j)) (p.offset <<< shift + j) =
            content ((⟨id, n / 2 ^ shift⟩ : region).offset <<< shift + j)
          rw [writeBytes_in _ (Nat.le_add_right _ _) (by omega)]
          rw [Nat.add_sub_cancel_left]
          congr 1
          show n + j = (n / 2 ^ shift) <<< shift + j
          rw [hpo]
        have hBC4 := BContent_put hBC3 hpage hputbytes
        have hBP4 := @BPart_put _ _ _ ⟨id, n / 2 ^ shift⟩ _ hBP3
        have hinv3 : CInv { c with
              buckets := Function.update c.buckets (c.hash ⟨id, n / 2 ^ shift⟩)
                ((writePage b2 p shift (2 ^ shift) (fun j => content (n + j))).put
                  ⟨id, n / 2 ^ shift⟩ p) }
            numPages content sz shift := by
          intro i1
          by_cases hii : i1 = c.hash ⟨id, n / 2 ^ shift⟩
          · subst hii
            simp only [Function.update_same]
            exact ⟨hBP4, hBC4⟩
          · simp only [Function.update_noteq hii]
            exact hinv i1
        have hbelow3 : BelowCut { c with
              buckets := Function.update c.buckets (c.hash ⟨id, n / 2 ^ shift⟩)
                ((writePage b2 p shift (2 ^ shift) (fun j => content (n + j))).put
                  ⟨id, n / 2 ^ shift⟩ p) }
            cut shift := by
          intro i1 e1 he1
          by_cases hii : i1 = c.hash ⟨id, n / 2 ^ shift⟩
          · subst hii
            simp only [Function.update_same] at he1
            rcases put_spec (writePage b2 p shift (2 ^ shift) (fun j => content (n + j)))
                ⟨id, n / 2 ^ shift⟩ p with ⟨old, hf2, heq2⟩ | ⟨hf2, heq2⟩ <;>
              rw [heq2] at he1 <;> rcases List.mem_cons.mp he1 with rfl | he2
            · show (n / 2 ^ shift) <<< shift < cut
              rw [hpo]
              omega
            · exact hbelowb2 _ ((lruRemove_sublist _ _).subset he2)
            · show (n / 2 ^ shift) <<< shift < cut
              rw [hpo]
              omega
            · exact hbelowb2 _ he2
          · simp only [Function.update_noteq hii] at he1
            exact hbelow i1 e1 he1
        have hmin : min (blen - n) (2 ^ shift - 0) = 2 ^ shift := by omega
        have hbytesm : ∀ j, j < 2 ^ shift →
            (writePage b2 p shift (2 ^ shift) (fun j => content (n + j))).pages
              (p.offset <<< shift + (0 + j)) = content (n + j) := by
          intro j hj
          show writeBytes b2.pages (p.offset <<< shift) (2 ^ shift)
              (fun j => content (n + j)) (p.offset <<< shift + (0 + j)) =
            content (n + j)
          rw [writeBytes_in _ (Nat.le_add_right _ _) (by omega)]
          rw [Nat.add_sub_cancel_left]
          congr 1
          omega
        have hout1 : out ++ (List.range (min (blen - n) (2 ^ shift - 0))).map
              (fun j => (writePage b2 p shift (2 ^ shift)
                (fun j => content (n + j))).pages
                (p.offset <<< shift + (0 + j))) =
            (List.range (n + 2 ^ shift)).map content := by
          rw [hout, hmin]
          exact range_map_append _ _ n _ (fun j hj => hbytesm j hj)
        rw [if_neg (by omega), if_neg (by omega)]
        obtain ⟨c2, calls2, hrec⟩ := ih _ (n + 2 ^ shift) _
          (calls ++ [(2 ^ shift, n)]) hinv3 hbelow3 hout1 hstep
          (by rw [Nat.add_mod_right]; exact hal) (by omega)
        exact ⟨c2, calls2, hrec⟩
theorem ReadAt_failAfter {content : Nat → UInt8} {sz id numPages shift cut rn1 : Nat}
    {e : Option Err} {c : Cache}
    (hnp : 1 ≤ numPages) (hwrap : sz ≤ u32 * (1 <<< shift))
    (he : e ≠ some Err.eof) (hrn1 : rn1 < 1 <<< shift) (hcut : cut % 2 ^ shift = 0)
    (hsh : c.shift = shift) (hinv : CInv c numPages content sz shift)
    (hbelow : BelowCut c cut shift)
    (blen : Nat) (hblen : blen ≤ sz) (hcutlt : cut < blen) :
    ∃ c2 calls2,
      ReadAt c (failSrc content sz cut rn1 e) id sz blen 0 =
        ⟨c2, (List.range cut).map content, cut, some (e.getD Err.errNoProgress),
          calls2⟩ := by
  rw [ReadAt, if_neg (by omega), if_neg (by omega)]
  simp only []
  rw [if_neg (by omega)]
  have h0 : (0 : Int).toNat = 0 := rfl
  rw [h0]
  have hmin : min blen (sz - 0) = blen := by omega
  rw [hmin, hsh]
  exact readLoop_failAfter hnp hwrap he hrn1 hcut blen hblen hcutlt (blen + 1) c 0 [] []
    hinv hbelow rfl (by omega) (Nat.zero_mod _) (by omega)

/-! ## The byte count whenever no error is reported -/

theorem ReadAt_none_n (c : Cache) (src : FileSrc) (id sz blen : Nat) (off : Int)
    (h : (ReadAt c src id sz blen off).err = none) :
    (ReadAt c src id sz blen off).n = min blen (sz - off.toNat) := by
  by_cases h0 : off < 0
  · rw [ReadAt, if_pos h0] at h
    simp at h
  rw [ReadAt, if_neg h0] at h ⊢
  by_cases h1 : (sz : Int) ≤ off
  · rw [if_pos h1] at h
    simp at h
  rw [if_neg h1] at h ⊢
  simp only [] at h ⊢
  by_cases h2 : min blen (sz - off.toNat) = 0
  · rw [if_pos h2] at h ⊢
    show 0 = min blen (sz - off.toNat)
    omega
  · rw [if_neg h2] at h ⊢
    exact readLoop_none_n src id sz c.shift _ c _ [] 0 off.toNat [] h

/-! ## A cached page is served without consulting the backing source -/

theorem ReadAt_hit_no_call (c : Cache) (src : FileSrc) (id sz blen : Nat) (off : Int)
    (h0 : 0 ≤ off) (hlt : off < (sz : Int)) (hblen : 0 < min blen (sz - off.toNat))
    (hro : off.toNat - ((off.toNat >>> c.shift) % u32) <<< c.shift ≤ 1 <<< c.shift)
    (hfit : min blen (sz - off.toNat) ≤
      (1 <<< c.shift) - (off.toNat - ((off.toNat >>> c.shift) % u32) <<< c.shift))
    (hhit : lruFind ⟨id, (off.toNat >>> c.shift) % u32⟩
        ((c.buckets (c.hash ⟨id, (off.toNat >>> c.shift) % u32⟩)).cache.queue) ≠
        none) :
    (ReadAt c src id sz blen off).calls = [] ∧
    (ReadAt c src id sz blen off).err = none := by
  rw [ReadAt, if_neg (by omega), if_neg (by omega)]
  simp only []
  rw [if_neg (by omega)]
  rcases read_spec (c.buckets (c.hash ⟨id, (off.toNat >>> c.shift) % u32⟩))
      (min blen (sz - off.toNat) - 0) ⟨id, (off.toNat >>> c.shift) % u32⟩ c.shift
      (off.toNat - ((off.toNat >>> c.shift) % u32) <<< c.shift) with
    ⟨p, hfind, heq⟩ | ⟨hfind, _⟩
  · simp only [readLoop, heq]
    rw [if_neg (by omega), if_pos (by omega)]
    exact ⟨rfl, rfl⟩
  · exact absurd hfind hhit
/-! ## The claims -/

/-- C1 (amended): for configurations whose `int64` size arithmetic does
not overflow (page size at most `2^62`, page count at most `2^38`,
`pageSize * pageCount < 2^63`) and sizes within the `uint32`-safe range
`sz ≤ 2^32 * pageSize`, construction succeeds and every legal read
through the cached reader over a well-behaved backing source, warm or
cold and after any sequence of prior reads, returns exactly the backing
bytes of the clamped request with no error.  (Beyond the `uint32` range
the original claim fails: the truncated page index makes the Go code
panic slicing `data[readOffset:rn]`; at overflowing configurations the
wrapped `cacheSize` gives zero-slot buckets and reads fail.) -/
theorem C1_roundtrip (cfg : Config) (seed : region → Fin numBuckets)
    (content : Nat → UInt8) (sz id : Nat) (prior : List (Int × Nat))
    (off : Int) (blen : Nat)
    (h1 : cfgPageSize cfg ≤ 2 ^ 62) (h2 : cfgPageCount cfg ≤ 2 ^ 38)
    (h3 : effPageSize cfg * effPageCount cfg < 2 ^ 63)
    (hwrap : sz ≤ u32 * 2 ^ effShift cfg)
    (h0 : 0 ≤ off) (hlt : off < (sz : Int)) (hblen : 0 < blen) :
    ∃ c0 c2 calls, NewWithConfig cfg seed = some c0 ∧
      ReadAt (runReads (honestSrc content sz) id sz c0 prior)
        (honestSrc content sz) id sz blen off =
        ⟨c2, (List.range (min blen (sz - off.toNat))).map
          (fun t => content (off.toNat + t)),
          min blen (sz - off.toNat), none, calls⟩ := by
  obtain ⟨hdiv, hnp1, hnpu⟩ := numPagesOf_eq cfg h1 h2 h3
  have hw : sz ≤ u32 * (1 <<< effShift cfg) := by
    rw [Nat.shiftLeft_eq, one_mul]
    exact hwrap
  obtain ⟨hinv0, hsh0, -⟩ := NewWithConfig_CInv cfg seed content sz h1 h2 h3
    (NewWithConfig_eq cfg seed h1 h2 h3)
  obtain ⟨hinv1, hsh1⟩ := runReads_honest hnp1 hw prior _ hsh0 hinv0
  obtain ⟨c2, calls, heq, -, -, -, -⟩ :=
    ReadAt_honest hnp1 hw hsh1 hinv1 blen off h0 hlt hblen
  exact ⟨_, c2, calls, NewWithConfig_eq cfg seed h1 h2 h3, heq⟩

/-- C1, witness: a concrete warm-cache read (one prior read) returns the
backing bytes of the clamped request. -/
theorem C1_roundtrip_witness :
    ∃ c0 c2 calls, NewWithConfig ⟨1, 64⟩ hash0 = some c0 ∧
      ReadAt (runReads (honestSrc (fun _ => (3 : UInt8)) 3) 7 3 c0 [(0, 2)])
        (honestSrc (fun _ => (3 : UInt8)) 3) 7 3 2 1 =
        ⟨c2, (List.range (min 2 (3 - (1 : Int).toNat))).map
          (fun _ => (3 : UInt8)), min 2 (3 - (1 : Int).toNat), none, calls⟩ :=
  C1_roundtrip ⟨1, 64⟩ hash0 (fun _ => 3) 3 7 [(0, 2)] 1 2 (by decide) (by decide)
    (by decide) (by decide) (by decide) (by decide) (by decide)

/-- C1, counterexample to the original claim: reading one byte at offset
`2^32` of a `2^32 + 1` byte file with one-byte pages is legal, but the
`uint32` page-index truncation sends the lookup to page `0` and the Go
code panics on `data[readOffset:rn]` (modelled as `panicSlice`), so the
destination does not receive the backing byte `1` of the request. -/
theorem C1_counterexample :
    (NewWithConfig ⟨1, 64⟩ hash0).map
        (fun c0 => ((ReadAt c0 (honestSrc (fun _ => 1) (u32 + 1)) 7 (u32 + 1) 1
          (u32 : Int)).out,
          (ReadAt c0 (honestSrc (fun _ => 1) (u32 + 1)) 7 (u32 + 1) 1
            (u32 : Int)).err)) = some ([], some Err.panicSlice) := by decide

/-- C2 (amended): at non-overflowing configurations, when the backing
source returns `rn1 < pageSize` bytes at page offset `cut` with an error
that is not end-of-input (or no error at all), a cold-cache read reaching
that page aborts there: the destination holds exactly the `cut` bytes
preceding the failing page, the count is `cut`, and the error is the
source's own error, or the distinguished no-progress error when the
source returned none.  (The original claim fails because the Go code
never checks that an end-of-input signal arrives at a position consistent
with `size`: a short read accompanied by a misplaced `io.EOF` is accepted
silently.) -/
theorem C2_short_read_abort (cfg : Config) (seed : region → Fin numBuckets)
    (content : Nat → UInt8) (sz id cut rn1 : Nat) (e : Option Err) (blen : Nat)
    (h1 : cfgPageSize cfg ≤ 2 ^ 62) (h2 : cfgPageCount cfg ≤ 2 ^ 38)
    (h3 : effPageSize cfg * effPageCount cfg < 2 ^ 63)
    (hwrap : sz ≤ u32 * 2 ^ effShift cfg) (he : e ≠ some Err.eof)
    (hrn1 : rn1 < 2 ^ effShift cfg) (hcut : cut % 2 ^ effShift cfg = 0)
    (hblen : blen ≤ sz) (hcutlt : cut < blen) :
    ∃ c0 c2 calls2, NewWithConfig cfg seed = some c0 ∧
      ReadAt c0 (failSrc content sz cut rn1 e) id sz blen 0 =
        ⟨c2, (List.range cut).map content, cut,
          some (e.getD Err.errNoProgress), calls2⟩ := by
  obtain ⟨hdiv, hnp1, hnpu⟩ := numPagesOf_eq cfg h1 h2 h3
  have hw : sz ≤ u32 * (1 <<< effShift cfg) := by
    rw [Nat.shiftLeft_eq, one_mul]
    exact hwrap
  have hrn2 : rn1 < 1 <<< effShift cfg := by
    rw [Nat.shiftLeft_eq, one_mul]
    exact hrn1
  obtain ⟨hinv0, hsh0, -⟩ := NewWithConfig_CInv cfg seed content sz h1 h2 h3
    (NewWithConfig_eq cfg seed h1 h2 h3)
  have hbelow : BelowCut
      ⟨seed, effShift cfg, fun _ => bucket.init (fun _ => 0)
        (bucketSizeOf cfg).toNat (effPageSize cfg).toNat⟩ cut (effShift cfg) := by
    intro i e1 he1
    simp [bucket.init] at he1
  obtain ⟨c2, calls2, heq⟩ := ReadAt_failAfter hnp1 hw he hrn2 hcut hsh0 hinv0
    hbelow blen hblen hcutlt
  exact ⟨_, c2, calls2, NewWithConfig_eq cfg seed h1 h2 h3, heq⟩

/-- C2, witness: a source failing silently (no error) at the second page
of a four-byte file aborts the read with the no-progress error after two
bytes. -/
theorem C2_short_read_abort_witness :
    ∃ c0 c2 calls2, NewWithConfig ⟨2, 64⟩ hash0 = some c0 ∧
      ReadAt c0 (failSrc (fun _ => (5 : UInt8)) 4 2 1 none) 7 4 4 0 =
        ⟨c2, (List.range 2).map (fun _ => (5 : UInt8)), 2,
          some Err.errNoProgress, calls2⟩ :=
  C2_short_read_abort ⟨2, 64⟩ hash0 (fun _ => 5) 4 7 2 1 none 4 (by decide)
    (by decide) (by decide) (by decide) (by decide) (by decide) (by decide)
    (by decide) (by decide)

/-- C2, counterexample to the original claim: with two-byte pages and a
four-byte file, a source returning one byte and `io.EOF` at page offset
`0` — a position not consistent with the size — should abort with a
no-progress error per the claim, but the Go code accepts any `io.EOF`
without checking its position: the read reports success with the full
count `4` while only three bytes were ever copied. -/
theorem C2_counterexample :
    (NewWithConfig ⟨2, 64⟩ hash0).map
        (fun c0 =>
          ((ReadAt c0 (failSrc (fun j => UInt8.ofNat j) 4 0 1 (some Err.eof))
              7 4 4 0).err,
           (ReadAt c0 (failSrc (fun j => UInt8.ofNat j) 4 0 1 (some Err.eof))
              7 4 4 0).n,
           ((ReadAt c0 (failSrc (fun j => UInt8.ofNat j) 4 0 1 (some Err.eof))
              7 4 4 0).out).length)) = some (none, 4, 3) := by decide

/-- C3 (amended): for buckets of at most `2^32` slots — beyond which the
`uint32(i)` truncation of `b.freed[i].offset` makes distinct free-stack
entries alias the same slot — every state reachable by a sequence of
bucket operations keeps each allocated slot in exactly one of three
places: the free stack, the LRU index (bound to one key), or the set of
slots handed out by `get` and not yet installed by `put`.  (The original
claim — free stack or LRU index, never neither — fails because a slot
acquired by `get` is in neither until `put` runs, and is abandoned
forever when the fetch fails.) -/
theorem C3_slot_partition (shift numPages : Nat) (ops : List bop)
    (h : numPages ≤ u32) :
    ((runB shift numPages ops).1.freed ++ slotsOf (runB shift numPages ops).1 ++
      (runB shift numPages ops).2).Perm (allSlots numPages) := by
  have h0 := BPart_init (fun _ => 0) (numPages * (1 <<< shift)) (1 <<< shift)
    (by rw [Nat.mul_div_cancel _ (pageSize_pos shift)]; exact h)
  rw [Nat.mul_div_cancel _ (pageSize_pos shift)] at h0
  exact BPart_foldl shift ops
    (bucket.init (fun _ => 0) (numPages * (1 <<< shift)) (1 <<< shift), []) h0

/-- C3, witness: the slot partition after a single `get` on a one-slot
bucket. -/
theorem C3_slot_partition_witness :
    ((runB 0 1 [bop.getSlot]).1.freed ++ slotsOf (runB 0 1 [bop.getSlot]).1 ++
      (runB 0 1 [bop.getSlot]).2).Perm (allSlots 1) :=
  C3_slot_partition 0 1 [bop.getSlot] (by decide)

/-- C3, counterexample to the original claim: after a single `get` on a
one-slot bucket, the acquired slot is in neither the free stack nor the
LRU index. -/
theorem C3_counterexample :
    ¬ (∀ p ∈ allSlots 1, p ∈ (runB 0 1 [bop.getSlot]).1.freed ∨
        p ∈ slotsOf (runB 0 1 [bop.getSlot]).1) := by decide

/-- C4 (amended): in every reachable bucket state, `hits ≤ lookups`;
`allocs - frees` equals the free-stack depth decrease (initial depth
`numPages`); and `inserts = evictions + frees + live entries` — a replacing
insert is counted in `inserts` and balanced by a `free`, not an eviction.
(The original third conjunct `inserts - evictions = live entries` fails on
a replacing insert.) -/
theorem C4_stats_invariant (shift numPages : Nat) (ops : List bop) :
    (runB shift numPages ops).1.hits ≤ (runB shift numPages ops).1.lookups ∧
    (runB shift numPages ops).1.allocs + (runB shift numPages ops).1.freed.length =
      (runB shift numPages ops).1.frees + numPages ∧
    (runB shift numPages ops).1.inserts =
      (runB shift numPages ops).1.evictions + (runB shift numPages ops).1.frees +
        (runB shift numPages ops).1.cache.Len :=
  CtrInv_foldl shift ops
    (bucket.init (fun _ => 0) (numPages * (1 <<< shift)) (1 <<< shift), [])
    (CtrInv_init shift numPages)

/-- C4, counterexample to the original claim: two `get`/`put` rounds on the
same key give `inserts = 2`, `evictions = 0`, but a single live entry, so
`inserts - evictions` is not the live-entry count. -/
theorem C4_counterexample :
    ¬ ((runB 0 2 [bop.getSlot, bop.putK ⟨0, 0⟩, bop.getSlot, bop.putK ⟨0, 0⟩]).1.inserts -
        (runB 0 2 [bop.getSlot, bop.putK ⟨0, 0⟩, bop.getSlot, bop.putK ⟨0, 0⟩]).1.evictions =
        (runB 0 2 [bop.getSlot, bop.putK ⟨0, 0⟩, bop.getSlot, bop.putK ⟨0, 0⟩]).1.cache.Len) := by
  decide
/-- C8: a negative offset returns the range error with no state change, an
offset at or past the size returns end-of-input with zero bytes and no
state change, a length extending past the size is silently clamped
(clamping never changes the result of the read), and a clamped length of
zero returns immediately with zero bytes and no error. -/
theorem C8_boundaries (c : Cache) (src : FileSrc) (id sz blen : Nat) (off : Int) :
    (off < 0 → ReadAt c src id sz blen off = ⟨c, [], 0, some Err.rangeErr, []⟩) ∧
    (¬ off < 0 → (sz : Int) ≤ off →
      ReadAt c src id sz blen off = ⟨c, [], 0, some Err.eof, []⟩) ∧
    (ReadAt c src id sz blen off =
      ReadAt c src id sz (min blen (sz - off.toNat)) off) ∧
    (¬ off < 0 → off < (sz : Int) → min blen (sz - off.toNat) = 0 →
      ReadAt c src id sz blen off = ⟨c, [], 0, none, []⟩) := by
  refine ⟨?_, ?_, ?_, ?_⟩
  · intro h0
    rw [ReadAt, if_pos h0]
  · intro h0 h1
    rw [ReadAt, if_neg h0, if_pos h1]
  · by_cases h0 : off < 0
    · rw [ReadAt, ReadAt, if_pos h0, if_pos h0]
    by_cases h1 : (sz : Int) ≤ off
    · rw [ReadAt, ReadAt, if_neg h0, if_neg h0, if_pos h1, if_pos h1]
    · rw [ReadAt, ReadAt, if_neg h0, if_neg h0, if_neg h1, if_neg h1]
      simp only []
      rw [min_assoc, min_self]
  · intro h0 h1 h2
    rw [ReadAt, if_neg h0, if_neg (by omega)]
    simp only []
    rw [if_pos h2]
/-- C8, witness: the boundary behaviours of a concrete two-byte file over
a concrete cache. -/
theorem C8_witness :
    ReadAt cache0 (honestSrc (fun _ => 3) 2) 7 2 5 (-1) =
      ⟨cache0, [], 0, some Err.rangeErr, []⟩ ∧
    ReadAt cache0 (honestSrc (fun _ => 3) 2) 7 2 5 2 =
      ⟨cache0, [], 0, some Err.eof, []⟩ ∧
    ReadAt cache0 (honestSrc (fun _ => 3) 2) 7 2 5 1 =
      ReadAt cache0 (honestSrc (fun _ => 3) 2) 7 2 (min 5 (2 - (1 : Int).toNat)) 1 :=
  ⟨(C8_boundaries cache0 (honestSrc (fun _ => 3) 2) 7 2 5 (-1)).1 (by decide),
   (C8_boundaries cache0 (honestSrc (fun _ => 3) 2) 7 2 5 2).2.1 (by decide)
     (by decide),
   (C8_boundaries cache0 (honestSrc (fun _ => 3) 2) 7 2 5 1).2.2.1⟩

/-- C10: whenever a cached read reports no error, the returned count is
exactly `min blen (sz - off)`: a successful read is never short of the
clamped request. -/
theorem C10_success_full_count (c : Cache) (src : FileSrc) (id sz blen : Nat)
    (off : Int) (h : (ReadAt c src id sz blen off).err = none) :
    (ReadAt c src id sz blen off).n = min blen (sz - off.toNat) :=
  ReadAt_none_n c src id sz blen off h
/-- C10, witness: a concrete error-free read returns the clamped count. -/
theorem C10_witness :
    (ReadAt cache0 (honestSrc (fun _ => 3) 2) 7 2 1 0).n =
      min 1 (2 - (0 : Int).toNat) := by
  have h : (ReadAt cache0 (honestSrc (fun _ => (3 : UInt8)) 2) 7 2 1 0).err = none := by
    decide
  exact C10_success_full_count cache0 (honestSrc (fun _ => 3) 2) 7 2 1 0 h

/-- C7 (amended): for configurations whose `int64` size arithmetic does
not overflow, construction succeeds and rounds the page size up to the
least power of two not below it (`4096` when the configured value is
non-positive), rounds the page count up to the least multiple of the 64
buckets not below it (treating a non-positive count as `1`), allocates a
zeroed arena of exactly `pageSize * pageCount` bytes split evenly into
the 64 buckets, and starts every bucket with `pageCount / 64` free slots
and an empty index.  (Unconditionally the original claim is false: the
`int64` product wraps.) -/
theorem C7_construction (cfg : Config) (seed : region → Fin numBuckets)
    (h1 : cfgPageSize cfg ≤ 2 ^ 62) (h2 : cfgPageCount cfg ≤ 2 ^ 38)
    (h3 : effPageSize cfg * effPageCount cfg < 2 ^ 63) :
    ∃ c0, NewWithConfig cfg seed = some c0 ∧
      effPageSize cfg = 2 ^ effShift cfg ∧
      cfgPageSize cfg ≤ effPageSize cfg ∧
      (∀ k : Nat, cfgPageSize cfg ≤ 2 ^ k → effPageSize cfg ≤ 2 ^ k) ∧
      (cfg.PageSize ≤ 0 → cfgPageSize cfg = 4096) ∧
      (cfg.PageCount ≤ 0 → cfgPageCount cfg = 1) ∧
      effPageCount cfg % 64 = 0 ∧
      cfgPageCount cfg ≤ effPageCount cfg ∧
      (∀ m : Int, m % 64 = 0 → cfgPageCount cfg ≤ m → effPageCount cfg ≤ m) ∧
      cacheSizeOf cfg = effPageSize cfg * effPageCount cfg ∧
      64 * bucketSizeOf cfg = cacheSizeOf cfg ∧
      (∀ i, (c0.buckets i).freed.length = (effPageCount cfg / 64).toNat) ∧
      (∀ i, (c0.buckets i).cache.Len = 0) ∧
      (∀ i j, (c0.buckets i).pages j = 0) := by
  obtain ⟨hiff, hge, hle, hmod, hcle⟩ := effPageCount_eq cfg h2
  obtain ⟨hdiv, hnp1, hnpu⟩ := numPagesOf_eq cfg h1 h2 h3
  have hset : effShift cfg = Nat.size (cfgPageSize cfg - 1).toNat := by
    rw [effShift, bitLen_eq_size]
  have hpos := cfgPageSize_pos cfg
  have hcastPS := effPageSize_cast cfg h1
  have hle2 : cfgPageSize cfg ≤ effPageSize cfg := by
    have hN : (cfgPageSize cfg - 1).toNat < 2 ^ effShift cfg := by
      rw [hset]
      exact Nat.lt_size_self _
    rw [hcastPS]
    omega
  have hmin2 : ∀ k : Nat, cfgPageSize cfg ≤ 2 ^ k → effPageSize cfg ≤ 2 ^ k := by
    intro k hk
    have hcastK : ((2 ^ k : Nat) : Int) = 2 ^ k := by push_cast; rfl
    have hNk : (cfgPageSize cfg - 1).toNat < 2 ^ k := by omega
    have hsz : Nat.size (cfgPageSize cfg - 1).toNat ≤ k := Nat.size_le.mpr hNk
    rw [hcastPS, ← hcastK]
    have hNle : (2 : Nat) ^ effShift cfg ≤ 2 ^ k := by
      rw [hset]
      exact Nat.pow_le_pow_right (by omega) hsz
    exact_mod_cast hNle
  have hmin8 : ∀ m : Int, m % 64 = 0 → cfgPageCount cfg ≤ m →
      effPageCount cfg ≤ m := by
    intro m hm hmle
    have hpc := cfgPageCount_pos cfg
    rw [hiff]
    by_cases h : cfgPageCount cfg % 64 ≠ 0
    · rw [if_pos h]
      omega
    · rw [if_neg h]
      exact hmle
  have hb64 : 64 * bucketSizeOf cfg = cacheSizeOf cfg := by
    rw [bucketSize_eq cfg h1 h2 h3, cacheSize_eq cfg h1 h2 h3]
    have hq : effPageCount cfg = 64 * (effPageCount cfg / 64) := by omega
    calc 64 * (effPageSize cfg * (effPageCount cfg / 64))
        = effPageSize cfg * (64 * (effPageCount cfg / 64)) := by ring
    _ = effPageSize cfg * effPageCount cfg := by rw [← hq]
  refine ⟨_, NewWithConfig_eq cfg seed h1 h2 h3, effPageSize_eq cfg h1, hle2, hmin2,
    ?_, ?_, hmod, hcle, hmin8, cacheSize_eq cfg h1 h2 h3, hb64, ?_,
    fun i => rfl, fun i j => rfl⟩
  · intro h
    rw [cfgPageSize, if_pos h]
  · intro h
    rw [cfgPageCount, if_pos h]
  · intro i
    show ((List.range ((bucketSizeOf cfg).toNat / (effPageSize cfg).toNat)).map
      (fun i => page.mk (i % u32))).length = _
    rw [List.length_map, List.length_range, hdiv]

/-- C7, witness: the construction at the concrete non-overflowing
configuration `(3000, 100)`. -/
theorem C7_construction_witness :
    ∃ c0, NewWithConfig ⟨3000, 100⟩ hash0 = some c0 ∧
      effPageSize ⟨3000, 100⟩ = 2 ^ effShift ⟨3000, 100⟩ ∧
      cfgPageSize ⟨3000, 100⟩ ≤ effPageSize ⟨3000, 100⟩ ∧
      (∀ k : Nat, cfgPageSize ⟨3000, 100⟩ ≤ 2 ^ k →
        effPageSize ⟨3000, 100⟩ ≤ 2 ^ k) ∧
      ((3000 : Int) ≤ 0 → cfgPageSize ⟨3000, 100⟩ = 4096) ∧
      ((100 : Int) ≤ 0 → cfgPageCount ⟨3000, 100⟩ = 1) ∧
      effPageCount ⟨3000, 100⟩ % 64 = 0 ∧
      cfgPageCount ⟨3000, 100⟩ ≤ effPageCount ⟨3000, 100⟩ ∧
      (∀ m : Int, m % 64 = 0 → cfgPageCount ⟨3000, 100⟩ ≤ m →
        effPageCount ⟨3000, 100⟩ ≤ m) ∧
      cacheSizeOf ⟨3000, 100⟩ = effPageSize ⟨3000, 100⟩ * effPageCount ⟨3000, 100⟩ ∧
      64 * bucketSizeOf ⟨3000, 100⟩ = cacheSizeOf ⟨3000, 100⟩ ∧
      (∀ i, (c0.buckets i).freed.length = (effPageCount ⟨3000, 100⟩ / 64).toNat) ∧
      (∀ i, (c0.buckets i).cache.Len = 0) ∧
      (∀ i j, (c0.buckets i).pages j = 0) :=
  C7_construction ⟨3000, 100⟩ hash0 (by decide) (by decide) (by decide)

/-- C7, counterexample to the original claim: at
`PageSize = PageCount = 2^32` the `int64` product `pageSize * pageCount`
wraps to `0`, so Go allocates a zero-byte arena and every bucket starts
with `0` free slots, not the claimed `pageCount / 64 = 2^26`. -/
theorem C7_counterexample :
    (NewWithConfig ⟨4294967296, 4294967296⟩ hash0).map
        (fun c0 => (c0.buckets ⟨0, by decide⟩).freed.length) = some 0 ∧
    cacheSizeOf ⟨4294967296, 4294967296⟩ = 0 ∧
    (effPageCount ⟨4294967296, 4294967296⟩ / 64).toNat = 67108864 := by decide

/-- C6: after any sequence of inserts, lookups and evictions, `Evict`
removes and returns exactly the queue tail, which is the entry whose
most recent insert-or-successful-lookup (ghost timestamp `touch`) is
oldest; a lookup of the evicted key then misses; a lookup hit moves its
entry to the front of the recency queue; and an entry touched more
recently than another is never the one eviction returns. -/
theorem C6_lru_recency {K V : Type} [DecidableEq K] (ops : List (lop K V)) :
    (∀ h : (runL ops).lru.queue ≠ [],
      (runL ops).lru.Evict =
        (⟨(runL ops).lru.queue.dropLast⟩, some ((runL ops).lru.queue.getLast h)) ∧
      (∀ e ∈ (runL ops).lru.queue,
        (runL ops).touch ((runL ops).lru.queue.getLast h).1 ≤ (runL ops).touch e.1) ∧
      (((runL ops).lru.Evict).1.Lookup ((runL ops).lru.queue.getLast h).1).2 =
        none) ∧
    (∀ k v, ((runL ops).lru.Lookup k).2 = some v →
      ((runL ops).lru.Lookup k).1.queue.head? = some (k, v)) ∧
    (∀ k v k1 v1, (k, v) ∈ (runL ops).lru.queue →
      (k1, v1) ∈ (runL ops).lru.queue →
      (runL ops).touch k1 < (runL ops).touch k →
      ((runL ops).lru.Evict).2 ≠ some (k, v)) := by
  obtain ⟨hsort, -, hnodup⟩ := LInv_runL ops
  have hmin : ∀ (h : (runL ops).lru.queue ≠ []), ∀ e ∈ (runL ops).lru.queue,
      (runL ops).touch ((runL ops).lru.queue.getLast h).1 ≤
        (runL ops).touch e.1 := by
    intro h e he
    have hlast := List.getLast?_eq_getLast (runL ops).lru.queue h
    have hdec := getLast?_decomp hlast
    rw [hdec] at hsort he
    simp only [List.map_append, List.map_cons, List.map_nil] at hsort
    have hm := pairwise_last_min hsort
    apply hm
    have h2 := List.mem_map_of_mem (fun x => (runL ops).touch x.1) he
    rw [List.map_append] at h2
    simpa using h2
  refine ⟨?_, ?_, ?_⟩
  · intro h
    have hlast := List.getLast?_eq_getLast (runL ops).lru.queue h
    have hev : (runL ops).lru.Evict =
        (⟨(runL ops).lru.queue.dropLast⟩,
          some ((runL ops).lru.queue.getLast h)) := by
      simp only [LRU.Evict, hlast]
    refine ⟨hev, hmin h, ?_⟩
    rw [hev]
    have hdec := getLast?_decomp hlast
    rw [hdec] at hnodup
    simp only [List.map_append, List.map_cons, List.map_nil] at hnodup
    have hdisj := (List.nodup_append.mp hnodup).2.2
    have hnm : ((runL ops).lru.queue.getLast h).1 ∉
        List.map Prod.fst (runL ops).lru.queue.dropLast := by
      intro hm
      exact hdisj hm (List.mem_singleton_self _)
    have hfind : lruFind ((runL ops).lru.queue.getLast h).1
        (runL ops).lru.queue.dropLast = none := lruFind_eq_none_iff.mpr hnm
    show (LRU.Lookup ⟨(runL ops).lru.queue.dropLast⟩
      ((runL ops).lru.queue.getLast h).1).2 = none
    simp only [LRU.Lookup, hfind]
  · intro k v hk
    cases hfind : lruFind k (runL ops).lru.queue with
    | none =>
      rw [LRU.Lookup] at hk
      simp only [hfind] at hk
      exact Option.noConfusion hk
    | some v1 =>
      rw [LRU.Lookup] at hk ⊢
      simp only [hfind, Option.some.injEq] at hk ⊢
      rw [List.head?_cons, hk]
  · intro k v k1 v1 hk hk1 hlt hev
    have h : (runL ops).lru.queue ≠ [] := by
      intro h0
      rw [h0] at hk
      exact absurd hk (List.not_mem_nil _)
    have hlast := List.getLast?_eq_getLast (runL ops).lru.queue h
    have heq : (runL ops).lru.Evict =
        (⟨(runL ops).lru.queue.dropLast⟩,
          some ((runL ops).lru.queue.getLast h)) := by
      simp only [LRU.Evict, hlast]
    rw [heq] at hev
    have hlk : (runL ops).lru.queue.getLast h = (k, v) := by simpa using hev
    have h2 : (runL ops).touch k ≤ (runL ops).touch k1 := by
      have h3 := hmin h (k1, v1) hk1
      rw [hlk] at h3
      exact h3
    omega

/-- C6, witness: after inserting keys `1` and `2` and then a hit on `1`,
the promoted entry `(1, 10)` is not the one eviction returns. -/
theorem C6_witness :
    ((runL [lop.ins 1 10, lop.ins 2 20, lop.look 1]).lru.Evict).2 ≠
      some ((1 : Nat), (10 : Nat)) :=
  (C6_lru_recency [lop.ins 1 10, lop.ins 2 20, lop.look 1]).2.2 1 10 2 20
    (by decide) (by decide) (by decide)
/-- C5 (amended): at non-overflowing configurations construction succeeds
with every bucket owning at least one page slot, and in sequential
executions whose backing source is well behaved (honest) no read ever
returns the "no free pages" error.  (The original unconditional claim
fails twice: overflowing configurations give zero-slot buckets, and a
failed fetch leaks the slot acquired by `get`, so repeated source
failures exhaust a bucket and make `get` return `ok = false`.) -/
theorem C5_no_free_pages (cfg : Config) (seed : region → Fin numBuckets)
    (content : Nat → UInt8) (sz id : Nat) (prior : List (Int × Nat))
    (blen : Nat) (off : Int)
    (h1 : cfgPageSize cfg ≤ 2 ^ 62) (h2 : cfgPageCount cfg ≤ 2 ^ 38)
    (h3 : effPageSize cfg * effPageCount cfg < 2 ^ 63)
    (hwrap : sz ≤ u32 * 2 ^ effShift cfg) :
    ∃ c0, NewWithConfig cfg seed = some c0 ∧
      (∀ i, 1 ≤ (c0.buckets i).freed.length) ∧
      (ReadAt (runReads (honestSrc content sz) id sz c0 prior)
          (honestSrc content sz) id sz blen off).err ≠ some Err.errNoPages := by
  obtain ⟨hdiv, hnp1, hnpu⟩ := numPagesOf_eq cfg h1 h2 h3
  have hw : sz ≤ u32 * (1 <<< effShift cfg) := by
    rw [Nat.shiftLeft_eq, one_mul]
    exact hwrap
  obtain ⟨hinv0, hsh0, -⟩ := NewWithConfig_CInv cfg seed content sz h1 h2 h3
    (NewWithConfig_eq cfg seed h1 h2 h3)
  obtain ⟨hinv1, hsh1⟩ := runReads_honest hnp1 hw prior _ hsh0 hinv0
  refine ⟨_, NewWithConfig_eq cfg seed h1 h2 h3, ?_, ?_⟩
  · intro i
    show 1 ≤ ((List.range ((bucketSizeOf cfg).toNat / (effPageSize cfg).toNat)).map
      (fun i => page.mk (i % u32))).length
    rw [List.length_map, List.length_range, hdiv]
    exact hnp1
  · by_cases h0 : off < 0
    · rw [ReadAt, if_pos h0]
      simp
    by_cases hl1 : (sz : Int) ≤ off
    · rw [ReadAt, if_neg h0, if_pos hl1]
      simp
    by_cases hb2 : min blen (sz - off.toNat) = 0
    · rw [ReadAt, if_neg h0, if_neg hl1]
      simp only []
      rw [if_pos hb2]
      simp
    · obtain ⟨c2, calls, heq, -, -, -, -⟩ :=
        ReadAt_honest hnp1 hw hsh1 hinv1 blen off (by omega) (by omega) (by omega)
      rw [heq]
      simp

/-- C5, witness: a concrete honest read does not return the "no free
pages" error. -/
theorem C5_no_free_pages_witness :
    ∃ c0, NewWithConfig ⟨1, 64⟩ hash0 = some c0 ∧
      (∀ i, 1 ≤ (c0.buckets i).freed.length) ∧
      (ReadAt (runReads (honestSrc (fun _ => (0 : UInt8)) 2) 7 2 c0 [])
          (honestSrc (fun _ => (0 : UInt8)) 2) 7 2 1 0).err ≠
        some Err.errNoPages :=
  C5_no_free_pages ⟨1, 64⟩ hash0 (fun _ => 0) 2 7 [] 1 0 (by decide) (by decide)
    (by decide) (by decide)

/-- C5, counterexample to the original claim: with one slot per bucket, a
source that always fails makes the first read leak its slot on the abort
path, and the second identical read finds both the free stack and the LRU
index empty: `get` fails and the read returns the "no free pages" error
in a plain sequential execution. -/
theorem C5_counterexample :
    (NewWithConfig ⟨1, 64⟩ hash0).map
        (fun c0 =>
          (ReadAt (ReadAt c0 (fun _ _ => ⟨0, fun _ => 0, some (Err.other 5)⟩)
              7 4 1 0).cache
            (fun _ _ => ⟨0, fun _ => 0, some (Err.other 5)⟩) 7 4 1 0).err) =
      some (some Err.errNoPages) := by decide

/-- C9 (amended): at non-overflowing configurations and within the
`uint32`-safe size range, every backing-source call issued by a legal
read requests exactly the rounded page size at a page-aligned offset
whose page intersects the clamped request; and a request that lies inside
a single already-cached page issues no call at all.  (The original
claim's `page_index = offset >> log2(page_size)` fails beyond `2^32`
pages, where the Go code truncates the index to `uint32` and calls the
source at the wrapped offset.) -/
theorem C9_call_shape (cfg : Config) (seed : region → Fin numBuckets)
    (content : Nat → UInt8) (sz id : Nat) (prior : List (Int × Nat)) (off : Int)
    (blen : Nat) (src : FileSrc)
    (h1 : cfgPageSize cfg ≤ 2 ^ 62) (h2 : cfgPageCount cfg ≤ 2 ^ 38)
    (h3 : effPageSize cfg * effPageCount cfg < 2 ^ 63)
    (hwrap : sz ≤ u32 * 2 ^ effShift cfg)
    (h0 : 0 ≤ off) (hlt : off < (sz : Int)) (hblen : 0 < blen) :
    (∃ c0 c2 calls, NewWithConfig cfg seed = some c0 ∧
      ReadAt (runReads (honestSrc content sz) id sz c0 prior)
        (honestSrc content sz) id sz blen off =
        ⟨c2, (List.range (min blen (sz - off.toNat))).map
          (fun t => content (off.toNat + t)),
          min blen (sz - off.toNat), none, calls⟩ ∧
      ∀ cl ∈ calls, cl.1 = 2 ^ effShift cfg ∧ cl.2 % 2 ^ effShift cfg = 0 ∧
        cl.2 < off.toNat + min blen (sz - off.toNat) ∧
        off.toNat < cl.2 + 2 ^ effShift cfg) ∧
    (∀ c : Cache,
      off.toNat - ((off.toNat >>> c.shift) % u32) <<< c.shift ≤ 1 <<< c.shift →
      min blen (sz - off.toNat) ≤
        (1 <<< c.shift) - (off.toNat - ((off.toNat >>> c.shift) % u32) <<< c.shift) →
      lruFind ⟨id, (off.toNat >>> c.shift) % u32⟩
          ((c.buckets (c.hash ⟨id, (off.toNat >>> c.shift) % u32⟩)).cache.queue) ≠
          none →
      (ReadAt c src id sz blen off).calls = []) := by
  constructor
  · obtain ⟨hdiv, hnp1, hnpu⟩ := numPagesOf_eq cfg h1 h2 h3
    have hw : sz ≤ u32 * (1 <<< effShift cfg) := by
      rw [Nat.shiftLeft_eq, one_mul]
      exact hwrap
    obtain ⟨hinv0, hsh0, -⟩ := NewWithConfig_CInv cfg seed content sz h1 h2 h3
      (NewWithConfig_eq cfg seed h1 h2 h3)
    obtain ⟨hinv1, hsh1⟩ := runReads_honest hnp1 hw prior _ hsh0 hinv0
    obtain ⟨c2, calls, heq, -, -, -, hcalls⟩ :=
      ReadAt_honest hnp1 hw hsh1 hinv1 blen off h0 hlt hblen
    exact ⟨_, c2, calls, NewWithConfig_eq cfg seed h1 h2 h3, heq, hcalls⟩
  · intro c hro hfit hhit
    exact (ReadAt_hit_no_call c src id sz blen off h0 hlt (by omega) hro hfit
      hhit).1

/-- C9, witness: the call-shape property at a concrete read, including the
no-call conclusion for caches holding the requested page. -/
theorem C9_call_shape_witness :
    (∃ c0 c2 calls, NewWithConfig ⟨2, 64⟩ hash0 = some c0 ∧
      ReadAt (runReads (honestSrc (fun _ => (3 : UInt8)) 4) 7 4 c0 [])
        (honestSrc (fun _ => (3 : UInt8)) 4) 7 4 2 1 =
        ⟨c2, (List.range (min 2 (4 - (1 : Int).toNat))).map
          (fun _ => (3 : UInt8)), min 2 (4 - (1 : Int).toNat), none, calls⟩ ∧
      ∀ cl ∈ calls, cl.1 = 2 ^ effShift ⟨2, 64⟩ ∧
        cl.2 % 2 ^ effShift ⟨2, 64⟩ = 0 ∧
        cl.2 < (1 : Int).toNat + min 2 (4 - (1 : Int).toNat) ∧
        (1 : Int).toNat < cl.2 + 2 ^ effShift ⟨2, 64⟩) ∧
    (∀ c : Cache,
      (1 : Int).toNat - (((1 : Int).toNat >>> c.shift) % u32) <<< c.shift ≤
        1 <<< c.shift →
      min 2 (4 - (1 : Int).toNat) ≤
        (1 <<< c.shift) -
          ((1 : Int).toNat - (((1 : Int).toNat >>> c.shift) % u32) <<< c.shift) →
      lruFind ⟨7, ((1 : Int).toNat >>> c.shift) % u32⟩
          ((c.buckets (c.hash ⟨7, ((1 : Int).toNat >>> c.shift) % u32⟩)).cache.queue) ≠
          none →
      (ReadAt c (honestSrc (fun _ => (3 : UInt8)) 4) 7 4 2 1).calls = []) :=
  C9_call_shape ⟨2, 64⟩ hash0 (fun _ => 3) 4 7 [] 1 2
    (honestSrc (fun _ => (3 : UInt8)) 4) (by decide) (by decide) (by decide)
    (by decide) (by decide) (by decide) (by decide)

/-- C9, counterexample to the original claim: at offset `2^32` with
one-byte pages, `page_index = offset >> log2(page_size) = 2^32`, so the
claimed source offset is `2^32 * pageSize = 2^32`; the Go code truncates
the index to `uint32` and actually issues the single call at offset `0`. -/
theorem C9_counterexample :
    (NewWithConfig ⟨1, 64⟩ hash0).map
        (fun c0 => (ReadAt c0 (honestSrc (fun _ => 1) (u32 + 1)) 7 (u32 + 1) 1
          (u32 : Int)).calls) = some [(1, 0)] ∧
    ((u32 : Int).toNat >>> effShift ⟨1, 64⟩) * 2 ^ effShift ⟨1, 64⟩ = u32 := by
  decide

end DS
